import Mathlib

/-!
Verification development for the OneDriveForLinux sync engine
(`app/sync/engine.py`, `app/storage/config_store.py`).

Paths are modelled at the segment level: a Python `pathlib.Path` (or a
slash-delimited Graph path) is represented as a `List String` of its
segments.  This is faithful for names free of the remote store's reserved
characters (`/`, `:`, ...), which is the regime all round-trip claims are
stated in.  Machine floats (`st_mtime`) are modelled as rationals.
-/

namespace OneDriveSync

/-- A local-root-relative path, as its list of segments. -/
abbrev RelPath := List String

/-! ## Path mapper (`SyncEngine._destination_path`, `_remote_relative_path`) -/

/-- Model of a Graph `parentReference` dict: optional `driveId`, optional
`path` (as segments), and the nested `parentReference.path` fallback that
`_destination_path` consults when the outer `path` is absent. -/
structure MParentRef where
  driveId : Option String
  path : Option (List String)
  nestedPath : Option (List String)
deriving DecidableEq, Repr

/-- Model of `DriveItem` as built by `SyncEngine._drive_item_from_dict`
(fields not used by the path logic are omitted; `parentRef = none` models a
falsy/absent `parentReference`). -/
structure MItem where
  id : String
  name : String
  isFolder : Bool
  parentRef : Option MParentRef
  etag : Option String
  lastModified : Option String
deriving DecidableEq, Repr

/-- `parent_path = parent_reference.get("path") or
parent_reference.get("parentReference", {}).get("path")` from
`_destination_path` (lines 426-427). -/
def parentPathSegs (item : MItem) : Option (List String) :=
  match item.parentRef with
  | none => none
  | some pr =>
    match pr.path with
    | some p => some p
    | none => pr.nestedPath

/-- `parent_path.split("root:", 1)[1]` at the segment level: everything after
the first segment equal to `"root:"` (in a real Graph path the marker is its
own `/`-delimited segment, e.g. `/drives/D/root:/A/B`). -/
def dropAfterFirst (x : String) : List String → List String
  | [] => []
  | a :: as => if a = x then as else dropAfterFirst x as

/-- `_destination_path` lines 430-435: the segments after the `root:` marker
when one is present, else all segments. -/
def rootSuffix (segs : List String) : List String :=
  if segs.contains "root:" then dropAfterFirst "root:" segs else segs

/-- `_destination_path` lines 436-437: drop a leading `drive`/`drives`
marker pair. -/
def stripDriveSegs (rel : List String) : List String :=
  if rel.head? = some "drive" ∨ rel.head? = some "drives" then rel.drop 2 else rel

/-- `_destination_path` lines 438-439: drop one leading segment equal to the
folder's display name. -/
def stripLeadingDisplay (displayName : String) (rel : List String) : List String :=
  if rel.head? = some displayName then rel.drop 1 else rel

/-- The relative path `SyncEngine._destination_path` computes for an item
(the result is `local_root.joinpath(*relative_parts) / item.name`, returned
here relative to the local root).  Mirrors lines 424-445 of
`app/sync/engine.py`: with no parent path the item lands directly under the
root by name. -/
def destinationRelParts (displayName : String) (item : MItem) : List String :=
  match parentPathSegs item with
  | none => [item.name]
  | some segs =>
    stripLeadingDisplay displayName (stripDriveSegs (rootSuffix segs)) ++ [item.name]

/-- `SyncEngine._normalize_part` (lines 567-571). -/
def normalizePart (part : String) : String :=
  if part = "root" ∨ part = "root:" then "root:" else part

/-- `_remote_relative_path` lines 519-521: drop a `drives/{drive_id}` prefix
when the configured drive id is non-empty. -/
def stripDrivePrefix (driveId : String) (parts : List String) : List String :=
  if driveId ≠ "" ∧ parts.take 2 = ["drives", driveId] then parts.drop 2 else parts

/-- `_remote_relative_path` lines 522-523: drop a leading `root`/`root:`
marker segment. -/
def stripRootMarker (parts : List String) : List String :=
  match parts.head? with
  | some h => if h = "root" ∨ h = "root:" then parts.drop 1 else parts
  | none => parts

/-- `_remote_relative_path` lines 524-526: drop a leading segment equal
(modulo `_normalize_part`) to the folder's display name, when the display
name is non-empty. -/
def stripDisplayNormalized (display : String) (parts : List String) : List String :=
  match parts.head? with
  | some h =>
    if display ≠ "" ∧ normalizePart h = normalizePart display then parts.drop 1 else parts
  | none => parts

/-- `SyncEngine._remote_relative_path` (lines 517-527): the remote-addressable
path for a local-root-relative path.  `driveId` and `display` are assumed
already whitespace-trimmed (the source applies `.strip()`). -/
def remoteRelativePath (driveId display : String) (relative : List String) : List String :=
  stripDisplayNormalized display
    (stripRootMarker (stripDrivePrefix driveId (relative.filter (fun p => p ≠ ""))))

/-- The remote→local direction of the round-trip claim: an item whose
folder-relative remote path is `ps ++ [name]` is reported by the remote API
with parent path `/drives/{driveId}/root:/{display}/{ps...}`; this is the
relative path `_destination_path` assigns to it. -/
def remoteToLocal (driveId display : String) (ps : List String) (name : String) : List String :=
  destinationRelParts display
    { id := "", name := name, isFolder := false,
      parentRef := some
        { driveId := some driveId,
          path := some (["drives", driveId, "root:", display] ++ ps),
          nestedPath := none },
      etag := none, lastModified := none }

/-! ## Conflict resolution (`SyncEngine._resolve_conflict`, `_prompt_conflict`) -/

/-- The action `_resolve_conflict` performs for a conflicted key. -/
inductive ConflictAction
  /-- delete the local file/tree and remove its FileState (remote deletion wins) -/
  | applyRemoteDelete
  /-- `dest.mkdir(parents=True, exist_ok=True)` for a remote folder item -/
  | materializeFolder
  /-- download remote content over the local file and record FileState -/
  | download
  /-- upload the local file and record FileState -/
  | upload
  /-- delete the remote item and remove the FileState (local deletion wins) -/
  | propagateDelete
  /-- leave the conflict untouched for the next run -/
  | skip
deriving DecidableEq, Repr

/-- `SyncEngine._resolve_conflict` (lines 291-330) as a pure decision
function.  `choice` is the value `_prompt_conflict` returns when the
`prompt` policy defers to the user. -/
def resolveConflictAction (policy direction : String)
    (localExists remoteDeleted isFolder : Bool) (choice : String) : ConflictAction :=
  if policy = "remote_wins" ∨ direction = "pull" then
    if remoteDeleted then .applyRemoteDelete
    else if isFolder then .materializeFolder
    else .download
  else if policy = "local_wins" ∨ direction = "push" then
    if localExists then .upload else .propagateDelete
  else
    if choice = "remote" then .download
    else if choice = "local" then
      if localExists then .upload else .propagateDelete
    else .skip

/-- `SyncEngine._prompt_conflict` (lines 332-337) in a non-interactive
execution context (no Qt application / `parent_widget is None`): it returns
`"remote"` without showing any dialog. -/
def nonInteractiveChoice : String := "remote"

/-- Decidable guard used by the round-trip theorem: the first segment of a
relative path is not one of the markers `_remote_relative_path` strips. -/
def headOK (display : String) (l : List String) : Bool :=
  match l.head? with
  | none => true
  | some h => !(h = "drives" || h = "root" || h = "root:" || h = display)

/-! ## Transfer executor: download atomicity (`SyncEngine._download_item`)

`_download_item` (lines 459-467) performs, in order: `dest.parent.mkdir`,
a write of the full content to `temp = dest.with_suffix(dest.suffix + ".tmp")`
(a sibling of `dest`; since `with_suffix` swaps the final suffix and the new
suffix is the old one with `".tmp"` appended, `temp`'s filename is always
`name + ".tmp"`), then `temp.replace(dest)` — an atomic rename.  The trace is
modelled as a list of atomic filesystem steps; an interruption is an
arbitrary proper prefix of the trace. -/

/-- Filesystem contents: directories plus file paths with their content
(content modelled by an integer fingerprint). -/
structure FsState where
  dirs : List (List String)
  files : List (List String × Int)
deriving DecidableEq, Repr

/-- One atomic filesystem step of `_download_item`. -/
inductive FsOp
  /-- `dest.parent.mkdir(parents=True, exist_ok=True)` -/
  | mkdirp (d : List String)
  /-- `open(temp, "wb").write(content)` -/
  | write (p : List String) (c : Int)
  /-- `temp.replace(dest)` (atomic rename; overwrites `dst`) -/
  | rename (src dst : List String)
deriving DecidableEq, Repr

def lookupFile (fs : FsState) (p : List String) : Option Int :=
  (fs.files.find? (fun e => e.1 == p)).map (·.2)

def applyOp (fs : FsState) : FsOp → FsState
  | .mkdirp d => { fs with dirs := d :: fs.dirs }
  | .write p c => { fs with files := (p, c) :: fs.files.filter (fun e => !(e.1 == p)) }
  | .rename src dst =>
    match lookupFile fs src with
    | none => fs
    | some c =>
      { fs with files := (dst, c) :: fs.files.filter (fun e => !(e.1 == src) && !(e.1 == dst)) }

def applyOps (fs : FsState) (ops : List FsOp) : FsState := ops.foldl applyOp fs

/-- `dest.with_suffix(dest.suffix + ".tmp")`: the temporary sibling's
filename. -/
def tempNameOf (name : String) : String := name ++ ".tmp"

/-- The step trace of `_download_item` for destination `dir/name`. -/
def downloadSteps (dir : List String) (name : String) (content : Int) : List FsOp :=
  [ .mkdirp dir,
    .write (dir ++ [tempNameOf name]) content,
    .rename (dir ++ [tempNameOf name]) (dir ++ [name]) ]

/-! ## Config store FileState table
(`ConfigStore.upsert_file_state` lines 526-566, `remove_file_state` lines
614-621, `SyncedItem` lines 68-82 of `app/storage/config_store.py`).

The `synced_items` table is modelled as a list of rows; `upsert_file_state`
selects the first row matching `(account_id, folder_remote_id,
relative_path)` and overwrites its payload fields, else inserts a new row;
`remove_file_state` deletes every matching row. -/

/-- `_normalize_account_id`: `account_id or DEFAULT_ACCOUNT_ID` (`None` and
`""` are falsy). -/
def normalizeAccountId (accountId : Option String) : String :=
  match accountId with
  | none => "default"
  | some s => if s = "" then "default" else s

/-- A row of `synced_items` (`SyncedItem`; the surrogate integer id plays no
role in the key semantics and is omitted). -/
structure StoreItem where
  accountId : String
  folderRemoteId : String
  itemId : String
  relativePath : String
  etag : Option String
  lastModified : Option String
  localMtime : Option ℚ
  contentHash : Option String
deriving DecidableEq, Repr

/-- The unique-constraint key `uq_synced_item_path`:
`(account_id, folder_remote_id, relative_path)`. -/
def storeKey (r : StoreItem) : String × String × String :=
  (r.accountId, r.folderRemoteId, r.relativePath)

/-- The WHERE clause of both `upsert_file_state`'s select and
`remove_file_state`'s delete. -/
def sameKey (r : StoreItem) (a f p : String) : Bool :=
  r.accountId == a && r.folderRemoteId == f && r.relativePath == p

/-- The field assignments in `upsert_file_state`'s found-branch
(lines 549-554): item id, etag, last-modified, mtime and hash are
overwritten; the key columns stay. -/
def updateFields (r : StoreItem) (itemId : String) (etag lastModified : Option String)
    (localMtime : Option ℚ) (contentHash : Option String) : StoreItem :=
  { r with itemId := itemId, etag := etag, lastModified := lastModified,
           localMtime := localMtime, contentHash := contentHash }

/-- Overwrite the first row matching the key (the row `session.scalar`
returns), leaving the rest untouched. -/
def replaceFirstMatch (a f p itemId : String) (etag lastModified : Option String)
    (localMtime : Option ℚ) (contentHash : Option String) :
    List StoreItem → List StoreItem
  | [] => []
  | r :: rs =>
    if sameKey r a f p then updateFields r itemId etag lastModified localMtime contentHash :: rs
    else r :: replaceFirstMatch a f p itemId etag lastModified localMtime contentHash rs

/-- `ConfigStore.upsert_file_state`. -/
def upsertFileState (db : List StoreItem) (accountId : Option String)
    (folderRemoteId itemId relativePath : String) (etag lastModified : Option String)
    (localMtime : Option ℚ) (contentHash : Option String) : List StoreItem :=
  let a := normalizeAccountId accountId
  if db.any (fun r => sameKey r a folderRemoteId relativePath) then
    replaceFirstMatch a folderRemoteId relativePath itemId etag lastModified localMtime
      contentHash db
  else
    db ++ [⟨a, folderRemoteId, itemId, relativePath, etag, lastModified, localMtime,
      contentHash⟩]

/-- `ConfigStore.remove_file_state`: `.filter(...).delete()` removes every
matching row. -/
def removeFileState (db : List StoreItem) (accountId : Option String)
    (folderRemoteId relativePath : String) : List StoreItem :=
  let a := normalizeAccountId accountId
  db.filter (fun r => !(sameKey r a folderRemoteId relativePath))

/-- A sequence of file-state mutations issued against the store. -/
inductive StoreOp
  | upsert (accountId : Option String) (folderRemoteId itemId relativePath : String)
      (etag lastModified : Option String) (localMtime : Option ℚ)
      (contentHash : Option String)
  | remove (accountId : Option String) (folderRemoteId relativePath : String)

def applyStoreOp (db : List StoreItem) : StoreOp → List StoreItem
  | .upsert a f itemId p etag lm mt ch => upsertFileState db a f itemId p etag lm mt ch
  | .remove a f p => removeFileState db a f p

/-- Replay a history of operations against an initially empty table. -/
def applyStoreOps (ops : List StoreOp) : List StoreItem :=
  ops.foldl applyStoreOp []

/-- Pairwise distinctness of key triples. -/
def keysUnique : List (String × String × String) → Bool
  | [] => true
  | k :: ks => ks.all (fun k' => !(k == k')) && keysUnique ks

/-- The store invariant of claim C9: at most one row per key. -/
def uniqueKeysB (db : List StoreItem) : Bool := keysUnique (db.map storeKey)

/-! ## Remote change collection: delta continuation
(`SyncEngine._collect_remote_changes` lines 214-229, `_normalize_delta`
lines 406-409). -/

/-- A remote change record (`RemoteChange`, lines 41-44): a DriveItem and the
deleted flag (`item.get("deleted") is not None`). -/
structure MRemoteChange where
  item : MItem
  deleted : Bool
deriving DecidableEq, Repr

/-- A reply of `client.delta`: either a JSON dict (value list already
converted to `RemoteChange`s by `_drive_item_from_dict`, plus the two odata
links) or any non-dict value. -/
inductive DeltaPayload
  | dict (value : List MRemoteChange) (nextLink : Option String) (deltaLink : Option String)
  | malformed
deriving DecidableEq, Repr

/-- `_normalize_delta`: a non-dict result is replaced by `{}`, whose `.get`
calls all yield `None`/`[]`. -/
def normalizeDelta (p : DeltaPayload) :
    List MRemoteChange × Option String × Option String :=
  match p with
  | .dict v n d => (v, n, d)
  | .malformed => ([], none, none)

/-- Python string truthiness: `None` and `""` are falsy. -/
def truthy : Option String → Bool
  | none => false
  | some s => s ≠ ""

/-- `_collect_remote_changes`: loop `while delta_link`, fetch
`delta(remote_id, delta_link)`, normalize, append the page's values, advance
`delta_link` to `@odata.nextLink` and keep the last truthy
`@odata.deltaLink`; afterwards persist `last_delta` when truthy.  Returns the
collected changes and the value passed to `update_folder_state` (`none` when
no persist call is made).  `delta` maps the current link to the reply; `fuel`
bounds the page count. -/
def collectRemoteChanges (delta : String → DeltaPayload) :
    Nat → Option String → Option String → List MRemoteChange × Option String
  | 0, _, last => ([], if truthy last then last else none)
  | fuel + 1, dl, last =>
    if truthy dl then
      let (value, next, dlink) := normalizeDelta (delta (dl.getD ""))
      let last' := if truthy dlink then dlink else last
      let (rest, persisted) := collectRemoteChanges delta fuel next last'
      (value ++ rest, persisted)
    else
      ([], if truthy last then last else none)

/-! ## Remote change collection: full listing
(`SyncEngine._collect_full_listing` lines 231-248).

`queue` is a Python list used with `queue.pop()` — which pops from the END
of the list.  The model returns the collected `RemoteChange`s in order and
the sequence of item ids passed to `_download_item`. -/

/-- One pending traversal entry: `(remote_id, drive_id, prefix)`. -/
structure QEntry where
  remoteId : String
  driveId : Option String
  pfx : List String
deriving DecidableEq, Repr

/-- The body of the `for item in page` loop: every item is collected with
`deleted=False`; folders are enqueued (own id, `parentReference.driveId` if
the parent reference is truthy else the inherited drive id, extended
prefix); non-folders are downloaded immediately. -/
def processPageItems (driveId : Option String) (pfx : List String) :
    List MItem → List MRemoteChange × List QEntry × List String
  | [] => ([], [], [])
  | it :: rest =>
    let (cs, qs, ds) := processPageItems driveId pfx rest
    if it.isFolder then
      (⟨it, false⟩ :: cs,
        ⟨it.id, (match it.parentRef with | none => driveId | some pr => pr.driveId),
          pfx ++ [it.name]⟩ :: qs,
        ds)
    else
      (⟨it, false⟩ :: cs, qs, it.id :: ds)

/-- Process one queue entry: iterate its pages in order. -/
def processEntry (children : String → List (List MItem)) (e : QEntry) :
    List MRemoteChange × List QEntry × List String :=
  go (children e.remoteId)
where
  go : List (List MItem) → List MRemoteChange × List QEntry × List String
    | [] => ([], [], [])
    | page :: pages =>
      let (cs, qs, ds) := processPageItems e.driveId e.pfx page
      let (cs', qs', ds') := go pages
      (cs ++ cs', qs ++ qs', ds ++ ds')

/-- `_collect_full_listing` as implemented: `queue.pop()` takes the LAST
entry (LIFO).  `fuel` bounds the number of processed entries. -/
def collectFullListing (children : String → List (List MItem)) :
    Nat → List QEntry → List MRemoteChange × List String
  | 0, _ => ([], [])
  | fuel + 1, queue =>
    match queue.getLast? with
    | none => ([], [])
    | some e =>
      let (cs, qs, ds) := processEntry children e
      let (cs', ds') := collectFullListing children fuel (queue.dropLast ++ qs)
      (cs ++ cs', ds ++ ds')

/-- The traversal the claim describes: identical except entries are taken
from the FRONT of the queue (breadth-first / FIFO). -/
def collectFullListingBFS (children : String → List (List MItem)) :
    Nat → List QEntry → List MRemoteChange × List String
  | 0, _ => ([], [])
  | fuel + 1, queue =>
    match queue with
    | [] => ([], [])
    | e :: rest =>
      let (cs, qs, ds) := processEntry children e
      let (cs', ds') := collectFullListingBFS children fuel (rest ++ qs)
      (cs ++ cs', ds ++ ds')

/-- A concrete two-level remote tree distinguishing the two orders: the sync
root has subfolders `A` then `B`; `A` contains file `a1`, `B` contains file
`b1`. -/
def mkFolder (ident : String) : MItem :=
  { id := ident, name := ident, isFolder := true, parentRef := none,
    etag := none, lastModified := none }

def mkFile (ident : String) : MItem :=
  { id := ident, name := ident, isFolder := false, parentRef := none,
    etag := none, lastModified := none }

def c5tree : String → List (List MItem) :=
  fun r =>
    if r = "root" then [[mkFolder "A", mkFolder "B"]]
    else if r = "A" then [[mkFile "a1"]]
    else if r = "B" then [[mkFile "b1"]]
    else []

/-! ## Local change detection and reconciliation
(`SyncEngine._detect_local_changes` lines 172-212, `_reconcile` lines
250-289, `sync_folder` lines 103-170).

One folder's world is modelled as a list of local files (path, content
fingerprint, mtime), the folder-scoped FileState rows, and a list of remote
changes.  File contents are identified with their hash fingerprint (an
`Int`); mtimes are rationals. -/

/-- A folder-scoped `FileState` row (`FileState` dataclass; account and
folder columns are fixed by the folder being synced). -/
structure MFileState where
  path : RelPath
  itemId : String
  etag : Option String
  lastModified : Option String
  localMtime : Option ℚ
  contentHash : Option Int
deriving DecidableEq, Repr

/-- A local regular file as the scan sees it. -/
structure MFile where
  path : RelPath
  hash : Int
  mtime : ℚ
deriving DecidableEq, Repr

/-- Python float truthiness of `state.local_mtime` (line 187): `None` and
`0.0` are falsy. -/
def mtimeTruthy : Option ℚ → Bool
  | none => false
  | some q => q ≠ 0

/-- The change test of `_detect_local_changes` (lines 185-189): changed iff
no prior state, or the recorded mtime is truthy and differs by more than
1e-3, or the recorded hash differs from the fresh one. -/
def changedFile (st : Option MFileState) (hash : Int) (mtime : ℚ) : Bool :=
  match st with
  | none => true
  | some s =>
    (mtimeTruthy s.localMtime && decide (|s.localMtime.getD 0 - mtime| > 1 / 1000))
      || decide (s.contentHash ≠ some hash)

/-- The `known_states` dict (line 174): one entry per path, last row wins
(later dict assignments overwrite). -/
def dedupKeepLast : List MFileState → List MFileState
  | [] => []
  | s :: ss =>
    if ss.any (fun t => t.path == s.path) then dedupKeepLast ss else s :: dedupKeepLast ss

/-- A `LocalChange` (lines 33-38; the absolute path is `root / relative` and
is omitted).  `contentHash = none` marks a deletion candidate. -/
structure MLocalChange where
  path : RelPath
  state : Option MFileState
  contentHash : Option Int
deriving DecidableEq, Repr

def findState (known : List MFileState) (p : RelPath) : Option MFileState :=
  known.find? (fun s => s.path == p)

def removeStatesAt (known : List MFileState) (p : RelPath) : List MFileState :=
  known.filter (fun s => !(s.path == p))

/-- The file loop of `_detect_local_changes` (lines 178-201): pop the known
state for each file's path, classify, and keep what remains of the dict. -/
def detectGo (known : List MFileState) :
    List MFile → List MLocalChange × List MFileState
  | [] => ([], known)
  | f :: fs =>
    match detectGo (removeStatesAt known f.path) fs with
    | (rest, leftover) =>
      if changedFile (findState known f.path) f.hash f.mtime then
        (⟨f.path, findState known f.path, some f.hash⟩ :: rest, leftover)
      else (rest, leftover)

/-- `_detect_local_changes` restricted to an error-free filesystem (every
file stats and hashes successfully; the error paths are modelled separately
by `detectLocalChangesE`): the changed files in scan order followed by the
deletion candidates (lines 203-210). -/
def detectLocalChanges (states : List MFileState) (files : List MFile) :
    List MLocalChange :=
  (detectGo (dedupKeepLast states) files).1
    ++ (detectGo (dedupKeepLast states) files).2.map (fun s => ⟨s.path, some s, none⟩)

/-! ### The scan with per-file read errors (claim C6)

`LocalWalker.hash_file` (lines 56-65) catches ONLY `FileNotFoundError`
(returning `None`); `path.stat()` (line 183) is not guarded at all. -/

/-- An error raised while reading a file. -/
inductive ReadErr
  | notFound
  | permission
deriving DecidableEq, Repr

/-- A file as encountered by the scan, together with the outcome of
`path.stat()` and of the `open`/`read` inside `hash_file`. -/
structure ScanFile where
  path : RelPath
  statRes : Except ReadErr ℚ
  readRes : Except ReadErr Int
deriving Repr

/-- `LocalWalker.hash_file`: a vanished file yields `None`; any other error
(e.g. `PermissionError`) escapes. -/
def hashFileE : Except ReadErr Int → Except ReadErr (Option Int)
  | .ok c => .ok (some c)
  | .error .notFound => .ok none
  | .error .permission => .error .permission

/-- The scan loop with fallible reads: `path.stat()` first (unguarded), then
`hash_file`.  An escaping exception aborts the whole scan. -/
def detectGoE (known : List MFileState) :
    List ScanFile → Except ReadErr (List MLocalChange × List MFileState)
  | [] => .ok ([], known)
  | f :: fs =>
    match f.statRes with
    | .error e => .error e
    | .ok mtime =>
      match hashFileE f.readRes with
      | .error e => .error e
      | .ok currentHash =>
        match detectGoE (removeStatesAt known f.path) fs with
        | .error e => .error e
        | .ok (rest, leftover) =>
          if (findState known f.path).isNone
              || (mtimeTruthy ((findState known f.path).bind (·.localMtime))
                    && decide (|((findState known f.path).bind (·.localMtime)).getD 0
                          - mtime| > 1 / 1000))
              || decide (((findState known f.path).bind (·.contentHash)) ≠ currentHash) then
            .ok (⟨f.path, findState known f.path, currentHash⟩ :: rest, leftover)
          else .ok (rest, leftover)

/-- `_detect_local_changes` over fallible reads. -/
def detectLocalChangesE (states : List MFileState) (files : List ScanFile) :
    Except ReadErr (List MLocalChange) :=
  match detectGoE (dedupKeepLast states) files with
  | .error e => .error e
  | .ok (cs, leftover) => .ok (cs ++ leftover.map (fun s => ⟨s.path, some s, none⟩))

/-! ### Reconciliation (`_reconcile` lines 250-289 plus the transfer helpers
it calls) -/

/-- Transfer/delete operations performed during one run. -/
structure RunOps where
  downloads : Nat
  uploads : Nat
  localDeletes : Nat
  remoteDeletes : Nat
deriving DecidableEq, Repr

def RunOps.zero : RunOps := ⟨0, 0, 0, 0⟩

/-- Mutable folder state during a run: local files, FileState rows, and the
operation counters. -/
structure RunState where
  files : List MFile
  states : List MFileState
  ops : RunOps
deriving DecidableEq, Repr

/-- Segment-level prefix test: `p` names `q` itself or a directory above
`q`. -/
def isPrefB : RelPath → RelPath → Bool
  | [], _ => true
  | _ :: _, [] => false
  | a :: as, b :: bs => a == b && isPrefB as bs

def fileExists (files : List MFile) (p : RelPath) : Bool :=
  files.any (fun f => f.path == p)

def findFile (files : List MFile) (p : RelPath) : Option MFile :=
  files.find? (fun f => f.path == p)

/-- Writing a file replaces any previous content at that exact path. -/
def writeFile (files : List MFile) (p : RelPath) (h : Int) (m : ℚ) : List MFile :=
  ⟨p, h, m⟩ :: files.filter (fun f => !(f.path == p))

/-- `_handle_delete` (lines 447-457): removes the file at `dest`, or the
whole subtree when `dest` is a directory; a no-op when nothing is there. -/
def handleDelete (files : List MFile) (p : RelPath) : List MFile :=
  files.filter (fun f => !(isPrefB p f.path))

/-- `dest.exists()`: a file at `dest` or a directory (some file below). -/
def pathPresent (files : List MFile) (p : RelPath) : Bool :=
  files.any (fun f => isPrefB p f.path)

def replaceFirstState (new : MFileState) : List MFileState → List MFileState
  | [] => []
  | s :: ss => if s.path == new.path then new :: ss else s :: replaceFirstState new ss

/-- The folder-scoped view of `upsert_file_state` (first matching row's
payload overwritten, else one row appended). -/
def upsertState (states : List MFileState) (itemId : String) (p : RelPath)
    (etag lastModified : Option String) (mt : Option ℚ) (h : Option Int) :
    List MFileState :=
  if states.any (fun s => s.path == p) then
    replaceFirstState ⟨p, itemId, etag, lastModified, mt, h⟩ states
  else states ++ [⟨p, itemId, etag, lastModified, mt, h⟩]

/-- The folder-scoped view of `remove_file_state` (all rows at the path). -/
def removeState (states : List MFileState) (p : RelPath) : List MFileState :=
  states.filter (fun s => !(s.path == p))

/-- The collaborators a run consumes: folder configuration (display name,
direction, policy — the `or`-defaults of lines 257-258 already applied),
the conflict prompt, remote download content by item id, the metadata the
upload endpoint returns, and the mtime the filesystem stamps on written
files. -/
structure MEnv where
  display : String
  direction : String
  policy : String
  promptChoice : RelPath → String
  dl : String → Int
  uploadId : RelPath → String
  uploadEtag : RelPath → Option String
  uploadLastModified : RelPath → Option String
  writeMtime : ℚ

/-- `direction in ("push", "bidirectional")`. -/
def allowsPush (direction : String) : Bool :=
  direction == "push" || direction == "bidirectional"

/-- `direction in ("pull", "bidirectional")`. -/
def allowsPull (direction : String) : Bool :=
  direction == "pull" || direction == "bidirectional"

/-- `_record_file_state` (lines 501-515): stat/hash the destination file and
upsert its FileState. -/
def recordFileState (files : List MFile) (states : List MFileState) (item : MItem)
    (dest : RelPath) : List MFileState :=
  upsertState states item.id dest item.etag item.lastModified
    ((findFile files dest).map (fun f => f.mtime))
    ((findFile files dest).map (fun f => f.hash))

/-- `_download_item` + `_record_file_state` as invoked from `_reconcile`. -/
def downloadTo (env : MEnv) (rs : RunState) (item : MItem) (dest : RelPath) : RunState :=
  let files' := writeFile rs.files dest (env.dl item.id) env.writeMtime
  { files := files',
    states := recordFileState files' rs.states item dest,
    ops := { rs.ops with downloads := rs.ops.downloads + 1 } }

/-- `_upload_item` (lines 469-488): upload, then record the upload result's
metadata together with the local file's fresh mtime and hash. -/
def uploadFrom (env : MEnv) (rs : RunState) (p : RelPath) : RunState :=
  { rs with
    states := upsertState rs.states (env.uploadId p) p (env.uploadEtag p)
      (env.uploadLastModified p)
      ((findFile rs.files p).map (fun f => f.mtime))
      ((findFile rs.files p).map (fun f => f.hash))
    ops := { rs.ops with uploads := rs.ops.uploads + 1 } }

/-- `_handle_delete dest` + `remove_file_state` for a remote deletion.
`dest` is the deletion target, `stateKey` the FileState row removed. -/
def applyLocalDelete (rs : RunState) (dest stateKey : RelPath) : RunState :=
  { files := handleDelete rs.files dest,
    states := removeState rs.states stateKey,
    ops := { rs.ops with
      localDeletes := rs.ops.localDeletes + (if pathPresent rs.files dest then 1 else 0) } }

/-- `_delete_remote` (lines 490-499): delete the remote item and remove the
FileState. -/
def propagateDeleteOp (rs : RunState) (p : RelPath) : RunState :=
  { rs with
    states := removeState rs.states p
    ops := { rs.ops with remoteDeletes := rs.ops.remoteDeletes + 1 } }

/-- Apply the resolution `_resolve_conflict` chooses for a conflicted key. -/
def applyConflict (env : MEnv) (rs : RunState) (lc : MLocalChange) (rc : MRemoteChange)
    (dest : RelPath) : RunState :=
  match resolveConflictAction env.policy env.direction (fileExists rs.files lc.path)
      rc.deleted rc.item.isFolder (env.promptChoice lc.path) with
  | .applyRemoteDelete => applyLocalDelete rs dest lc.path
  | .materializeFolder => rs
  | .download => downloadTo env rs rc.item dest
  | .upload => uploadFrom env rs lc.path
  | .propagateDelete => propagateDeleteOp rs lc.path
  | .skip => rs

/-- The dict insert of the remote-map comprehension (line 259-262): first
occurrence fixes the key position, later values overwrite. -/
def dictUpsert (m : List (RelPath × MRemoteChange)) (k : RelPath) (v : MRemoteChange) :
    List (RelPath × MRemoteChange) :=
  if m.any (fun e => e.1 == k) then
    m.map (fun e => if e.1 == k then (k, v) else e)
  else m ++ [(k, v)]

/-- The remote-change map keyed by destination relative path. -/
def remoteMap (display : String) (rcs : List MRemoteChange) :
    List (RelPath × MRemoteChange) :=
  rcs.foldl (fun m rc => dictUpsert m (destinationRelParts display rc.item) rc) []

/-- The first loop of `_reconcile` (lines 264-279): for each remote key, pop
the local change; a hit resolves as a conflict, a miss applies the remote
change when the direction allows pull (push-only folders ignore it). -/
def phaseA (env : MEnv) :
    List (RelPath × MRemoteChange) → RunState → List MLocalChange →
      RunState × List MLocalChange
  | [], rs, L => (rs, L)
  | (key, rc) :: rest, rs, L =>
    match L.find? (fun c => c.path == key) with
    | some lc =>
      phaseA env rest (applyConflict env rs lc rc key)
        (L.filter (fun c => !(c.path == key)))
    | none =>
      if allowsPull env.direction then
        if rc.deleted then
          phaseA env rest (applyLocalDelete rs key key) L
        else if rc.item.isFolder then
          phaseA env rest rs L
        else
          phaseA env rest (downloadTo env rs rc.item key) L
      else
        phaseA env rest rs L

/-- Lines 284-287 for one vanished-file entry: `_delete_remote` (which also
removes the FileState) when the direction pushes, then the loop's own
`remove_file_state`. -/
def orphanStep (env : MEnv) (rs : RunState) (p : RelPath) : RunState :=
  if allowsPush env.direction then
    { rs with
      states := removeState (removeState rs.states p) p
      ops := { rs.ops with remoteDeletes := rs.ops.remoteDeletes + 1 } }
  else { rs with states := removeState rs.states p }

/-- The second loop of `_reconcile` (lines 281-289): remaining local
changes.  A vanished file with a prior state propagates a remote deletion
when pushing and always drops its FileState; an existing file uploads when
pushing. -/
def phaseB (env : MEnv) : List MLocalChange → RunState → RunState
  | [], rs => rs
  | lc :: rest, rs =>
    if lc.state.isSome && !(fileExists rs.files lc.path) then
      phaseB env rest (orphanStep env rs lc.path)
    else if fileExists rs.files lc.path && allowsPush env.direction then
      phaseB env rest (uploadFrom env rs lc.path)
    else
      phaseB env rest rs

/-- `_reconcile`. -/
def reconcile (env : MEnv) (files : List MFile) (states : List MFileState)
    (lcs : List MLocalChange) (rcs : List MRemoteChange) : RunState :=
  phaseB env
    (phaseA env (remoteMap env.display rcs) ⟨files, states, RunOps.zero⟩ lcs).2
    (phaseA env (remoteMap env.display rcs) ⟨files, states, RunOps.zero⟩ lcs).1

/-- One delta-based `sync_folder` run over the model state: detect local
changes, then reconcile them against the collected remote changes. -/
def runDelta (env : MEnv) (files : List MFile) (states : List MFileState)
    (rcs : List MRemoteChange) : RunState :=
  reconcile env files states (detectLocalChanges states files) rcs

/-- Does reading this file raise something `hash_file` does not catch? -/
def isPermissionError : Except ReadErr Int → Bool
  | .error .permission => true
  | _ => false

/-- Environment for the C3 counterexample: a bidirectional folder with the
default `remote_wins` policy in a non-interactive context. -/
def c3env : MEnv :=
  { display := "Docs"
    direction := "bidirectional"
    policy := "remote_wins"
    promptChoice := fun _ => "remote"
    dl := fun _ => 0
    uploadId := fun _ => "u1"
    uploadEtag := fun _ => none
    uploadLastModified := fun _ => none
    writeMtime := 1 }

/-- A synchronized FileState for the local file `sub/x` (no recorded mtime —
`0.0`/`None` are equally falsy on line 187 — and a matching hash). -/
def c3state : MFileState := ⟨["sub", "x"], "it1", none, none, none, some 5⟩

/-- The local file `sub/x`, in sync with `c3state`. -/
def c3file : MFile := ⟨["sub", "x"], 5, 10⟩

/-- A remote deletion marker for the folder `sub` (no parent path, as is
typical for deletion markers). -/
def c3deletion : MRemoteChange :=
  ⟨{ id := "sub", name := "sub", isFolder := true, parentRef := none,
     etag := none, lastModified := none }, true⟩

/-- The invariant carried through reconciliation: path uniqueness of every
list, every FileState row backed by a local file unless its path is still
pending in the local-change worklist `L`, every local file clean (matched by
an unchanged FileState) unless pending — only demanded for push-capable
directions — and pending new-file entries having no FileState row. -/
structure RunInv (env : MEnv) (rs : RunState) (L : List MLocalChange) : Prop where
  ndS : (rs.states.map (·.path)).Nodup
  ndF : (rs.files.map (·.path)).Nodup
  ndL : (L.map (·.path)).Nodup
  sOK : ∀ s ∈ rs.states, fileExists rs.files s.path = true ∨ s.path ∈ L.map (·.path)
  fOK : allowsPush env.direction = true → ∀ f ∈ rs.files,
      (∃ s ∈ rs.states, s.path = f.path ∧ changedFile (some s) f.hash f.mtime = false)
        ∨ f.path ∈ L.map (·.path)
  noSt : ∀ lc ∈ L, lc.state = none → ∀ s ∈ rs.states, s.path ≠ lc.path

/-- Environment for the witness of the amended C3 (written files get mtime
`0.0`, which the change test treats as falsy exactly as the source does). -/
def c3wenv : MEnv :=
  { display := "Docs"
    direction := "bidirectional"
    policy := "remote_wins"
    promptChoice := fun _ => "remote"
    dl := fun _ => 7
    uploadId := fun _ => "u"
    uploadEtag := fun _ => none
    uploadLastModified := fun _ => none
    writeMtime := 0 }

/-- A single remote file upsert for the witness. -/
def c3witnessItem : MRemoteChange :=
  ⟨{ id := "f1", name := "a.txt", isFolder := false, parentRef := none,
     etag := none, lastModified := none }, false⟩

/-! ## Theorems: C1, C2, C7, C8 -/

/-- C1 is false as stated: in a push-direction folder configured with the
`remote_wins` conflict policy, `_resolve_conflict` tests
`conflict_policy == "remote_wins"` before `direction == "push"`, so the
remote side wins (the item is downloaded), not the local side (which the
claim says would be uploaded since the local file exists). -/
theorem c1_push_remote_wins_counterexample :
    resolveConflictAction "remote_wins" "push" true false false nonInteractiveChoice
      = ConflictAction.download ∧
    ConflictAction.download ≠ ConflictAction.upload := by decide

/-- C1 (amended): when the sync direction is push and the configured conflict
policy is anything other than `remote_wins`, the local side wins: the local
file is uploaded if it still exists, otherwise a remote deletion is
propagated. -/
theorem c1_push_local_wins_unless_remote_wins
    (policy : String) (localExists remoteDeleted isFolder : Bool) (choice : String)
    (hpol : policy ≠ "remote_wins") :
    resolveConflictAction policy "push" localExists remoteDeleted isFolder choice
      = if localExists then ConflictAction.upload else ConflictAction.propagateDelete := by
  have h1 : ¬ (policy = "remote_wins" ∨ ("push" : String) = "pull") := by
    rintro (h | h)
    · exact hpol h
    · exact absurd h (by decide)
  have h2 : policy = "local_wins" ∨ ("push" : String) = "push" := Or.inr rfl
  unfold resolveConflictAction
  rw [if_neg h1, if_pos h2]

/-- Witness for the amended C1 at a concrete input. -/
theorem c1_push_local_wins_witness :
    resolveConflictAction "local_wins" "push" true false false "remote"
      = ConflictAction.upload := by
  have h := c1_push_local_wins_unless_remote_wins "local_wins" true false false "remote"
    (by decide)
  simpa using h

/-- C2 is false as stated: for the relative path `Docs/a.txt` in a folder
whose display name is `Docs` (no reserved characters involved),
`_destination_path` maps the remote item back to `Docs/a.txt`, but
`_remote_relative_path` strips the leading segment equal to the display name,
so the round trip yields `a.txt` instead of the original path. -/
theorem c2_round_trip_counterexample :
    remoteToLocal "d1" "Docs" ["Docs"] "a.txt" = ["Docs", "a.txt"] ∧
    remoteRelativePath "d1" "Docs" ["Docs", "a.txt"] = ["a.txt"] ∧
    (["a.txt"] : List String) ≠ ["Docs", "a.txt"] := by decide

/-- C2 (amended): the two path mappings are mutually inverse for every
relative path with non-empty segments whose first segment is not one of the
stripped markers (`drives`, `root`, `root:`) and does not equal the folder's
display name, for a display name that is itself none of those markers and a
drive id distinct from the `root:` marker: both directions reproduce the
original segments, hence both round trips are the identity on such paths. -/
theorem c2_round_trip_amended (driveId display : String) (ps : List String) (name : String)
    (hdrive : driveId ≠ "root:")
    (hdisp : display ≠ "" ∧ display ≠ "root" ∧ display ≠ "root:" ∧
      display ≠ "drive" ∧ display ≠ "drives")
    (hseg : (ps ++ [name]).all (fun s => s ≠ "") = true)
    (hhead : headOK display (ps ++ [name]) = true) :
    remoteToLocal driveId display ps name = ps ++ [name] ∧
    remoteRelativePath driveId display (ps ++ [name]) = ps ++ [name] := by
  obtain ⟨hd1, hd2, hd3, hd4, hd5⟩ := hdisp
  constructor
  · -- remote → local reproduces the folder-relative segments
    have hsuffix : rootSuffix (["drives", driveId, "root:", display] ++ ps) = display :: ps := by
      have hcontains : (["drives", driveId, "root:", display] ++ ps).contains "root:" = true :=
        List.elem_iff.mpr (by simp)
      have hdrop : dropAfterFirst "root:" (["drives", driveId, "root:", display] ++ ps)
          = display :: ps := by
        simp [dropAfterFirst, hdrive]
      rw [rootSuffix, if_pos hcontains, hdrop]
    have hdrives : stripDriveSegs (display :: ps) = display :: ps := by
      rw [stripDriveSegs, if_neg]
      simp [hd4, hd5]
    have hdisp' : stripLeadingDisplay display (display :: ps) = ps := by
      rw [stripLeadingDisplay, if_pos (by simp)]
      rfl
    unfold remoteToLocal destinationRelParts parentPathSegs
    simp only [hsuffix, hdrives, hdisp']
  · -- local → remote leaves the path untouched
    have hfilter : (ps ++ [name]).filter (fun p => p ≠ "") = ps ++ [name] := by
      rw [List.filter_eq_self]
      intro a ha
      simpa using (List.all_eq_true.mp hseg) a ha
    cases hps : ps ++ [name] with
    | nil => exact absurd hps (by simp)
    | cons h t =>
      rw [hps] at hfilter hhead
      have hh1 : h ≠ "drives" := by intro e; subst e; simp [headOK] at hhead
      have hh2 : h ≠ "root" := by intro e; subst e; simp [headOK] at hhead
      have hh3 : h ≠ "root:" := by intro e; subst e; simp [headOK] at hhead
      have hh4 : h ≠ display := by intro e; subst e; simp [headOK] at hhead
      have hdrivep : stripDrivePrefix driveId (h :: t) = h :: t := by
        rw [stripDrivePrefix, if_neg]
        rintro ⟨-, htk⟩
        cases t with
        | nil => simp at htk
        | cons b bs => exact hh1 (by simpa using congrArg List.head? htk)
      have hroot : stripRootMarker (h :: t) = h :: t := by
        rw [stripRootMarker]
        simp only [List.head?_cons]
        rw [if_neg]
        rintro (e | e)
        · exact hh2 e
        · exact hh3 e
      have hdispn : stripDisplayNormalized display (h :: t) = h :: t := by
        rw [stripDisplayNormalized]
        simp only [List.head?_cons]
        rw [if_neg]
        rintro ⟨-, hnp⟩
        exact hh4 (by simpa [normalizePart, hh2, hh3, hd2, hd3] using hnp)
      rw [remoteRelativePath, hfilter, hdrivep, hroot, hdispn]

/-- Witness for the amended C2 at a concrete input. -/
theorem c2_round_trip_witness :
    remoteToLocal "d1" "Docs" ["sub"] "a.txt" = ["sub", "a.txt"] ∧
    remoteRelativePath "d1" "Docs" ["sub", "a.txt"] = ["sub", "a.txt"] := by
  have h := c2_round_trip_amended "d1" "Docs" ["sub"] "a.txt"
    (by decide) (by decide) (by decide) (by decide)
  exact h

/-- C7 is false as stated: for a remote deletion marker whose item record has
no parent reference, `_destination_path` computes empty `relative_parts` and
returns `local_root / item.name` — the item is placed directly under the sync
root by name.  No fallback to the stored FileState (last known relative path,
here `sub/a.txt`) exists anywhere in the collector. -/
theorem c7_deletion_path_counterexample :
    destinationRelParts "Docs"
      { id := "i1", name := "a.txt", isFolder := false, parentRef := none,
        etag := none, lastModified := none } = ["a.txt"] ∧
    (["a.txt"] : List String) ≠ ["sub", "a.txt"] := by decide

/-- C7 (amended): whenever an item record carries no resolvable parent path
(no `parentReference`, or one whose `path` and nested fallback are both
absent), `_destination_path` derives the relative path from the missing
remote metadata alone: the item is keyed directly under the sync root by its
name. -/
theorem c7_no_parent_path_under_root (display : String) (item : MItem)
    (h : parentPathSegs item = none) :
    destinationRelParts display item = [item.name] := by
  unfold destinationRelParts
  rw [h]

/-- Witness for the amended C7 at a concrete input. -/
theorem c7_no_parent_path_witness :
    destinationRelParts "Docs"
      { id := "i2", name := "b.txt", isFolder := true, parentRef := none,
        etag := none, lastModified := none } = ["b.txt"] := by
  have h := c7_no_parent_path_under_root "Docs"
    { id := "i2", name := "b.txt", isFolder := true, parentRef := none,
      etag := none, lastModified := none } rfl
  exact h

/-- C8 is false as stated: under the `prompt` policy in a non-interactive
context the choice defaults to `"remote"`, but the `"remote"` branch of
`_resolve_conflict` unconditionally downloads the item — for a remote
deletion marker it does NOT remove the local file and its FileState the way
`remote_wins` would. -/
theorem c8_prompt_noninteractive_counterexample :
    resolveConflictAction "prompt" "bidirectional" true true false nonInteractiveChoice
      = ConflictAction.download ∧
    resolveConflictAction "remote_wins" "bidirectional" true true false nonInteractiveChoice
      = ConflictAction.applyRemoteDelete ∧
    ConflictAction.download ≠ ConflictAction.applyRemoteDelete := by decide

/-- C8 (amended): in a non-interactive context the `prompt` policy resolves a
conflict exactly as `remote_wins` would only for non-deleted, non-folder
remote changes (both download the remote item over the local file); for
deletion markers and folder items the two policies diverge (prompt still
downloads). -/
theorem c8_prompt_noninteractive_matches_remote_wins_on_file_upserts (localExists : Bool) :
    resolveConflictAction "prompt" "bidirectional" localExists false false nonInteractiveChoice
      = resolveConflictAction "remote_wins" "bidirectional" localExists false false
          nonInteractiveChoice ∧
    resolveConflictAction "prompt" "bidirectional" localExists true false nonInteractiveChoice
      ≠ resolveConflictAction "remote_wins" "bidirectional" localExists true false
          nonInteractiveChoice ∧
    resolveConflictAction "prompt" "bidirectional" localExists false true nonInteractiveChoice
      ≠ resolveConflictAction "remote_wins" "bidirectional" localExists false true
          nonInteractiveChoice := by
  cases localExists <;> decide

theorem tempNameOf_ne (name : String) : tempNameOf name ≠ name := by
  intro h
  have hlen := congrArg String.length h
  rw [tempNameOf, String.length_append] at hlen
  have h4 : (".tmp" : String).length = 4 := rfl
  omega

theorem find_filter_ne (files : List (List String × Int)) (p q : List String) (h : p ≠ q) :
    ((files.filter fun e => !(e.1 == q)).find? fun e => e.1 == p)
      = files.find? fun e => e.1 == p := by
  have hqp : (q == p) = false := beq_eq_false_iff_ne.mpr fun e => h e.symm
  have hpq : (p == q) = false := beq_eq_false_iff_ne.mpr h
  induction files with
  | nil => rfl
  | cons f fs ih =>
    by_cases hq : f.1 = q
    · simp [List.filter_cons, hq, List.find?_cons, hqp, ih]
    · by_cases hp : f.1 = p
      · simp [List.filter_cons, hq, hp, hpq, List.find?_cons]
      · simp [List.filter_cons, hq, hp, List.find?_cons, ih]

theorem lookupFile_mkdirp (fs : FsState) (d q : List String) :
    lookupFile (applyOp fs (.mkdirp d)) q = lookupFile fs q := rfl

theorem lookupFile_write_other (fs : FsState) (p q : List String) (c : Int) (h : p ≠ q) :
    lookupFile (applyOp fs (.write p c)) q = lookupFile fs q := by
  have hb : (p == q) = false := beq_eq_false_iff_ne.mpr h
  simp only [applyOp, lookupFile, List.find?_cons, hb]
  rw [find_filter_ne fs.files q p fun e => h e.symm]

theorem lookupFile_write_self (fs : FsState) (p : List String) (c : Int) :
    lookupFile (applyOp fs (.write p c)) p = some c := by
  simp [applyOp, lookupFile, List.find?_cons]

theorem lookupFile_rename_hit (fs : FsState) (src dst : List String) (c : Int)
    (h : lookupFile fs src = some c) :
    lookupFile (applyOp fs (.rename src dst)) dst = some c := by
  rw [applyOp, h]
  simp [lookupFile, List.find?_cons]

/-- C4: the destination is untouched by every proper prefix of the download
trace (an interruption at any point leaves it absent or with its pre-sync
content), and the completed trace leaves exactly the downloaded content at
the destination. -/
theorem c4_download_atomic (fs : FsState) (dir : List String) (name : String)
    (content : Int) (k : Nat) (hk : k < 3) :
    lookupFile (applyOps fs ((downloadSteps dir name content).take k)) (dir ++ [name])
      = lookupFile fs (dir ++ [name]) ∧
    lookupFile (applyOps fs (downloadSteps dir name content)) (dir ++ [name])
      = some content := by
  have hne : dir ++ [tempNameOf name] ≠ dir ++ [name] := by
    intro h
    exact tempNameOf_ne name (by simpa using h)
  have hfull :
      lookupFile (applyOps fs (downloadSteps dir name content)) (dir ++ [name])
        = some content := by
    simp only [downloadSteps, applyOps, List.foldl_cons, List.foldl_nil]
    exact lookupFile_rename_hit _ _ _ _
      (lookupFile_write_self (applyOp fs (.mkdirp dir)) (dir ++ [tempNameOf name]) content)
  refine ⟨?_, hfull⟩
  interval_cases k
  · rfl
  · rfl
  · show lookupFile (applyOp (applyOp fs (.mkdirp dir))
      (.write (dir ++ [tempNameOf name]) content)) (dir ++ [name]) = _
    rw [lookupFile_write_other _ _ _ _ hne, lookupFile_mkdirp]

/-- Witness for C4 at a concrete interruption point. -/
theorem c4_download_atomic_witness :
    lookupFile (applyOps ⟨[], []⟩ ((downloadSteps ["d"] "a.txt" 7).take 2)) (["d"] ++ ["a.txt"])
      = lookupFile ⟨[], []⟩ (["d"] ++ ["a.txt"]) ∧
    lookupFile (applyOps ⟨[], []⟩ (downloadSteps ["d"] "a.txt" 7)) (["d"] ++ ["a.txt"])
      = some 7 :=
  c4_download_atomic ⟨[], []⟩ ["d"] "a.txt" 7 2 (by decide)

theorem sameKey_iff (r : StoreItem) (a f p : String) :
    sameKey r a f p = true ↔ storeKey r = (a, f, p) := by
  simp [sameKey, storeKey, Prod.ext_iff, and_assoc]

theorem replaceFirstMatch_keys (a f p itemId : String) (etag lm : Option String)
    (mt : Option ℚ) (ch : Option String) (db : List StoreItem) :
    (replaceFirstMatch a f p itemId etag lm mt ch db).map storeKey = db.map storeKey := by
  induction db with
  | nil => rfl
  | cons r rs ih =>
    by_cases h : sameKey r a f p = true
    · simp [replaceFirstMatch, h, updateFields, storeKey]
    · simp [replaceFirstMatch, h, ih, storeKey]

theorem keysUnique_sublist {ks ks' : List (String × String × String)}
    (h : List.Sublist ks' ks) (hk : keysUnique ks = true) : keysUnique ks' = true := by
  induction h with
  | slnil => rfl
  | cons k h ih =>
    rw [keysUnique] at hk
    exact ih (Bool.and_elim_right hk)
  | cons₂ k h ih =>
    rw [keysUnique] at hk ⊢
    have h1 := Bool.and_elim_left hk
    have h2 := Bool.and_elim_right hk
    rw [ih h2, Bool.and_true]
    rw [List.all_eq_true] at h1 ⊢
    exact fun k' hk' => h1 k' (h.subset hk')

theorem keysUnique_append_singleton (ks : List (String × String × String))
    (k : String × String × String) (h : keysUnique ks = true)
    (hk : ∀ k' ∈ ks, k' ≠ k) : keysUnique (ks ++ [k]) = true := by
  induction ks with
  | nil => simp [keysUnique]
  | cons k0 ks ih =>
    rw [keysUnique] at h
    rw [List.cons_append, keysUnique]
    have h1 := Bool.and_elim_left h
    have h2 := Bool.and_elim_right h
    rw [ih h2 (fun k' hk' => hk k' (List.mem_cons_of_mem _ hk')), Bool.and_true]
    rw [List.all_eq_true] at h1 ⊢
    intro k' hk'
    rcases List.mem_append.mp hk' with hmem | hmem
    · exact h1 k' hmem
    · have : k' = k := by simpa using hmem
      subst this
      simpa using (hk k0 (List.mem_cons_self _ _)).symm ∘ Eq.symm ∘ (beq_iff_eq.mp ·)

theorem uniqueKeysB_applyStoreOp (db : List StoreItem) (op : StoreOp)
    (h : uniqueKeysB db = true) : uniqueKeysB (applyStoreOp db op) = true := by
  cases op with
  | upsert a f itemId p etag lm mt ch =>
    rw [applyStoreOp, upsertFileState]
    by_cases hany :
        (db.any fun r => sameKey r (normalizeAccountId a) f p) = true
    · rw [if_pos hany]
      unfold uniqueKeysB
      rw [replaceFirstMatch_keys]
      exact h
    · rw [if_neg hany]
      unfold uniqueKeysB
      rw [List.map_append]
      refine keysUnique_append_singleton _ _ h ?_
      intro k' hk' hek
      rcases List.mem_map.mp hk' with ⟨r, hr, hrk⟩
      apply hany
      rw [List.any_eq_true]
      refine ⟨r, hr, ?_⟩
      rw [sameKey_iff, hrk, hek]
      rfl
  | remove a f p =>
    rw [applyStoreOp]
    unfold uniqueKeysB removeFileState
    refine keysUnique_sublist ?_ h
    exact List.Sublist.map storeKey (List.filter_sublist db)

theorem uniqueKeysB_foldl (ops : List StoreOp) (db : List StoreItem)
    (h : uniqueKeysB db = true) : uniqueKeysB (ops.foldl applyStoreOp db) = true := by
  induction ops generalizing db with
  | nil => exact h
  | cons op ops ih => exact ih _ (uniqueKeysB_applyStoreOp db op h)

theorem replaceFirstMatch_find (a f p itemId : String) (etag lm : Option String)
    (mt : Option ℚ) (ch : Option String) (db : List StoreItem) :
    ((replaceFirstMatch a f p itemId etag lm mt ch db).find?
        fun r => sameKey r a f p)
      = (db.find? fun r => sameKey r a f p).map
          (fun r => updateFields r itemId etag lm mt ch) := by
  induction db with
  | nil => rfl
  | cons r rs ih =>
    by_cases h : sameKey r a f p = true
    · have h' : sameKey (updateFields r itemId etag lm mt ch) a f p = true := by
        rw [sameKey_iff] at h ⊢
        simpa [updateFields, storeKey] using h
      simp [replaceFirstMatch, h, List.find?_cons, h']
    · simp [replaceFirstMatch, h, List.find?_cons, ih]

/-- C9: replaying any sequence of `upsert_file_state`/`remove_file_state`
operations from an empty table yields at most one row per
`(account_id, folder_remote_id, relative_path)` key; an upsert of a present
key overwrites that row's payload in place (key multiset unchanged, the
matching row carries the new field values), and an upsert of an absent key
appends exactly one new row. -/
theorem c9_store_unique_per_key (ops : List StoreOp) (db : List StoreItem)
    (acc : Option String) (folderId itemId relPath : String)
    (etag lm : Option String) (mt : Option ℚ) (ch : Option String) :
    uniqueKeysB (applyStoreOps ops) = true ∧
    ((db.any fun r => sameKey r (normalizeAccountId acc) folderId relPath) = true →
      (upsertFileState db acc folderId itemId relPath etag lm mt ch).map storeKey
          = db.map storeKey ∧
      ((upsertFileState db acc folderId itemId relPath etag lm mt ch).find?
          fun r => sameKey r (normalizeAccountId acc) folderId relPath)
        = (db.find? fun r => sameKey r (normalizeAccountId acc) folderId relPath).map
            (fun r => updateFields r itemId etag lm mt ch)) ∧
    ((db.any fun r => sameKey r (normalizeAccountId acc) folderId relPath) = false →
      upsertFileState db acc folderId itemId relPath etag lm mt ch
        = db ++ [⟨normalizeAccountId acc, folderId, itemId, relPath, etag, lm, mt, ch⟩]) := by
  refine ⟨uniqueKeysB_foldl ops [] rfl, ?_, ?_⟩
  · intro hany
    rw [upsertFileState]
    rw [if_pos hany]
    exact ⟨replaceFirstMatch_keys _ _ _ _ _ _ _ _ _,
      replaceFirstMatch_find _ _ _ _ _ _ _ _ _⟩
  · intro hany
    rw [upsertFileState]
    rw [if_neg (by simp [hany])]

/-- Witness for C9 at a concrete history: an upsert, a same-key upsert and a
remove, replayed from the empty table. -/
theorem c9_store_unique_per_key_witness :
    uniqueKeysB (applyStoreOps
      [ .upsert (some "acct") "folder" "item1" "a.txt" none none none none,
        .upsert (some "acct") "folder" "item2" "a.txt" (some "e2") none none none,
        .remove (some "acct") "folder" "b.txt" ]) = true ∧
    upsertFileState
        [⟨"acct", "folder", "item1", "a.txt", none, none, none, none⟩]
        (some "acct") "folder" "item9" "b.txt" none none none none
      = [⟨"acct", "folder", "item1", "a.txt", none, none, none, none⟩,
         ⟨"acct", "folder", "item9", "b.txt", none, none, none, none⟩] := by
  have h := c9_store_unique_per_key
    [ .upsert (some "acct") "folder" "item1" "a.txt" none none none none,
      .upsert (some "acct") "folder" "item2" "a.txt" (some "e2") none none none,
      .remove (some "acct") "folder" "b.txt" ]
    [⟨"acct", "folder", "item1", "a.txt", none, none, none, none⟩]
    (some "acct") "folder" "item9" "b.txt" none none none none
  exact ⟨h.1, h.2.2 (by decide)⟩

theorem collectRemoteChanges_exhausted (delta : String → DeltaPayload) (fuel : Nat)
    (last : Option String) :
    collectRemoteChanges delta fuel none last
      = ([], if truthy last then last else none) := by
  cases fuel with
  | zero => rfl
  | succ n => rfl

/-- C10: when the reply to the current delta link is not a dict,
`_normalize_delta` turns it into `{}`: the page contributes no changes, the
loop ends (no `@odata.nextLink`), and the cursor persisted at the end of
collection is the last value accumulated before the malformed page
(re-persisted unchanged); nothing is raised (the model is total). -/
theorem c10_malformed_delta_page (delta : String → DeltaPayload) (fuel : Nat)
    (dl last : Option String)
    (hdl : truthy dl = true)
    (hmal : delta (dl.getD "") = .malformed) :
    collectRemoteChanges delta (fuel + 1) dl last
      = ([], if truthy last then last else none) := by
  rw [collectRemoteChanges, if_pos hdl, hmal]
  simp [normalizeDelta, truthy, collectRemoteChanges_exhausted]

/-- Witness for C10: a malformed first page with a previously stored cursor
`"c1"` yields no changes and re-persists `"c1"`. -/
theorem c10_malformed_delta_page_witness :
    collectRemoteChanges (fun _ => .malformed) 3 (some "c1") (some "c1")
      = ([], some "c1") := by
  have h := c10_malformed_delta_page (fun _ => .malformed) 2 (some "c1") (some "c1")
    rfl rfl
  simpa using h

/-- C5 is false as stated: the traversal is not breadth-first.  On the
concrete tree, the implementation downloads `b1` before `a1` (`queue.pop()`
is LIFO, so the most recently enqueued folder `B` is visited first), while
the breadth-first traversal the claim describes downloads `a1` first. -/
theorem c5_bfs_counterexample :
    (collectFullListing c5tree 4 [⟨"root", some "drv", []⟩]).2 = ["b1", "a1"] ∧
    (collectFullListingBFS c5tree 4 [⟨"root", some "drv", []⟩]).2 = ["a1", "b1"] ∧
    (["b1", "a1"] : List String) ≠ ["a1", "b1"] := by
  refine ⟨rfl, rfl, by decide⟩

/-- C5 (amended): with no delta cursor the collector traverses the remote
tree depth-first — `queue.pop()` removes the LAST entry, so the most
recently enqueued folder is visited next (LIFO order).  Within a visited
entry, every item of every page is recorded as a `RemoteChange` with
`deleted = false`; every non-folder item's id is downloaded immediately, in
page order; every folder item is enqueued with its own id, the drive id of
its parent reference when present (else the inherited one) and the extended
path prefix. -/
theorem c5_full_listing_lifo (children : String → List (List MItem)) (fuel : Nat)
    (es : List QEntry) (e : QEntry) (driveId : Option String) (pfx : List String)
    (items : List MItem) :
    collectFullListing children (fuel + 1) (es ++ [e])
      = ((processEntry children e).1
            ++ (collectFullListing children fuel (es ++ (processEntry children e).2.1)).1,
         (processEntry children e).2.2
            ++ (collectFullListing children fuel (es ++ (processEntry children e).2.1)).2) ∧
    (processPageItems driveId pfx items).1 = items.map (fun it => ⟨it, false⟩) ∧
    (processPageItems driveId pfx items).2.2
      = (items.filter (fun it => !it.isFolder)).map (·.id) ∧
    (processPageItems driveId pfx items).2.1
      = (items.filter (fun it => it.isFolder)).map
          (fun it => ⟨it.id,
            (match it.parentRef with | none => driveId | some pr => pr.driveId),
            pfx ++ [it.name]⟩) := by
  refine ⟨?_, ?_, ?_, ?_⟩
  · rw [collectFullListing]
    rw [List.getLast?_concat, List.dropLast_concat]
  · induction items with
    | nil => rfl
    | cons it rest ih =>
      by_cases h : it.isFolder <;> simp [processPageItems, h, ih]
  · induction items with
    | nil => rfl
    | cons it rest ih =>
      by_cases h : it.isFolder <;> simp [processPageItems, h, ih]
  · induction items with
    | nil => rfl
    | cons it rest ih =>
      by_cases h : it.isFolder <;> simp [processPageItems, h, ih]

/-- Witness for the amended C5 at the concrete tree. -/
theorem c5_full_listing_lifo_witness :
    collectFullListing c5tree 4 ([⟨"A", some "drv", ["A"]⟩] ++ [⟨"B", some "drv", ["B"]⟩])
      = ((processEntry c5tree ⟨"B", some "drv", ["B"]⟩).1
            ++ (collectFullListing c5tree 3
                  ([⟨"A", some "drv", ["A"]⟩]
                    ++ (processEntry c5tree ⟨"B", some "drv", ["B"]⟩).2.1)).1,
         (processEntry c5tree ⟨"B", some "drv", ["B"]⟩).2.2
            ++ (collectFullListing c5tree 3
                  ([⟨"A", some "drv", ["A"]⟩]
                    ++ (processEntry c5tree ⟨"B", some "drv", ["B"]⟩).2.1)).2) ∧
    (processPageItems (some "drv") [] [mkFolder "A", mkFile "a1"]).1
      = [⟨mkFolder "A", false⟩, ⟨mkFile "a1", false⟩] := by
  have h := c5_full_listing_lifo c5tree 3 [⟨"A", some "drv", ["A"]⟩]
    ⟨"B", some "drv", ["B"]⟩ (some "drv") [] [mkFolder "A", mkFile "a1"]
  refine ⟨h.1, ?_⟩
  rw [h.2.1]
  rfl

/-! ## Theorems: C6 and C3 -/

/-- C6 is false as stated: a `PermissionError` while hashing a file escapes
`hash_file` (which catches only `FileNotFoundError`) and aborts the whole
scan instead of skipping the entry. -/
theorem c6_permission_error_counterexample :
    detectLocalChangesE [] [⟨["a.txt"], .ok 1, .error .permission⟩]
      = .error .permission := rfl

theorem detectGoE_ok (files : List ScanFile) (known : List MFileState)
    (hstat : ∀ f ∈ files, f.statRes.isOk = true)
    (hread : ∀ f ∈ files, isPermissionError f.readRes = false) :
    (detectGoE known files).isOk = true := by
  induction files generalizing known with
  | nil => rfl
  | cons f fs ih =>
    have hs := hstat f (List.mem_cons_self _ _)
    have hr := hread f (List.mem_cons_self _ _)
    cases hst : f.statRes with
    | error e => rw [hst] at hs; simp [Except.isOk, Except.toBool] at hs
    | ok mtime =>
      have hh : (hashFileE f.readRes).isOk = true := by
        cases hrd : f.readRes with
        | ok c => rfl
        | error e =>
          cases e with
          | notFound => rfl
          | permission => rw [hrd] at hr; simp [isPermissionError] at hr
      cases hhe : hashFileE f.readRes with
      | error e => rw [hhe] at hh; simp [Except.isOk, Except.toBool] at hh
      | ok currentHash =>
        have hrec := ih (removeStatesAt known f.path)
          (fun g hg => hstat g (List.mem_cons_of_mem _ hg))
          (fun g hg => hread g (List.mem_cons_of_mem _ hg))
        cases hre : detectGoE (removeStatesAt known f.path) fs with
        | error e => rw [hre] at hrec; simp [Except.isOk, Except.toBool] at hrec
        | ok pair =>
          cases pair with
          | mk rest leftover =>
            rw [detectGoE, hst]
            dsimp only
            rw [hhe]
            dsimp only
            rw [hre]
            dsimp only
            split
            · rfl
            · rfl

/-- C6 (amended): during the local scan only a vanished file
(`FileNotFoundError` inside `hash_file`) is tolerated — the entry proceeds
with a null hash (so it is classified as changed, not skipped); any other
error while hashing (e.g. a permission error) and any error from
`path.stat()` abort the whole scan.  When every file stats successfully and
no read raises a permission error, the scan returns normally (and, being a
pure function of its inputs here, performs no writes). -/
theorem c6_scan_error_handling (states : List MFileState) (files : List ScanFile)
    (hstat : ∀ f ∈ files, f.statRes.isOk = true)
    (hread : ∀ f ∈ files, isPermissionError f.readRes = false) :
    (detectLocalChangesE states files).isOk = true := by
  rw [detectLocalChangesE]
  have h := detectGoE_ok files (dedupKeepLast states) hstat hread
  cases hre : detectGoE (dedupKeepLast states) files with
  | error e => rw [hre] at h; simp [Except.isOk, Except.toBool] at h
  | ok pair => cases pair with | mk cs leftover => rfl

/-- Witness for the amended C6: a healthy file plus a vanished file still
scan successfully. -/
theorem c6_scan_error_handling_witness :
    (detectLocalChangesE []
      [⟨["a"], .ok 1, .ok 5⟩, ⟨["b"], .ok 2, .error .notFound⟩]).isOk = true :=
  c6_scan_error_handling []
    [⟨["a"], .ok 1, .ok 5⟩, ⟨["b"], .ok 2, .error .notFound⟩]
    (by decide) (by decide)

/-- C3 is false as stated: sync a folder whose remote feed deletes the
directory `sub` while the local file `sub/x` is synchronized (FileState
matches).  The first run deletes the local subtree but removes only the
FileState keyed `sub`, orphaning the row for `sub/x`.  The second run —
with no intervening local modification and an empty delta feed — then
propagates a remote deletion for `sub/x` (one deletion, not zero) and drops
its FileState (the FileState set differs). -/
theorem c3_idempotence_counterexample :
    (runDelta c3env
        (runDelta c3env [c3file] [c3state] [c3deletion]).files
        (runDelta c3env [c3file] [c3state] [c3deletion]).states []).ops.remoteDeletes
      = 1 ∧
    (runDelta c3env
        (runDelta c3env [c3file] [c3state] [c3deletion]).files
        (runDelta c3env [c3file] [c3state] [c3deletion]).states []).states
      ≠ (runDelta c3env [c3file] [c3state] [c3deletion]).states := by
  decide

/-! ### Infrastructure for the amended idempotence theorem -/

theorem isPrefB_refl (p : RelPath) : isPrefB p p = true := by
  induction p with
  | nil => rfl
  | cons a as ih => simp [isPrefB, ih]

theorem mem_removeState {states : List MFileState} {p : RelPath} {s : MFileState} :
    s ∈ removeState states p ↔ s ∈ states ∧ s.path ≠ p := by
  simp [removeState, List.mem_filter]

theorem mem_handleDelete {files : List MFile} {k : RelPath} {f : MFile} :
    f ∈ handleDelete files k ↔ f ∈ files ∧ isPrefB k f.path = false := by
  simp [handleDelete, List.mem_filter]

theorem fileExists_iff {files : List MFile} {p : RelPath} :
    fileExists files p = true ↔ ∃ f ∈ files, f.path = p := by
  simp [fileExists, List.any_eq_true]

theorem fileExists_of_mem {files : List MFile} {f : MFile} (h : f ∈ files) :
    fileExists files f.path = true :=
  fileExists_iff.mpr ⟨f, h, rfl⟩

theorem mem_writeFile {files : List MFile} {p : RelPath} {c : Int} {m : ℚ} {f : MFile} :
    f ∈ writeFile files p c m ↔ f = ⟨p, c, m⟩ ∨ (f ∈ files ∧ f.path ≠ p) := by
  simp [writeFile, List.mem_filter]

theorem fileExists_writeFile_iff {files : List MFile} {p q : RelPath} {c : Int} {m : ℚ} :
    fileExists (writeFile files p c m) q = true ↔ q = p ∨ fileExists files q = true := by
  constructor
  · intro h
    rcases fileExists_iff.mp h with ⟨f, hf, hfp⟩
    rcases mem_writeFile.mp hf with hf' | ⟨hmem, -⟩
    · subst hf'; exact Or.inl hfp.symm
    · exact Or.inr (fileExists_iff.mpr ⟨f, hmem, hfp⟩)
  · rintro (rfl | h)
    · exact fileExists_iff.mpr ⟨⟨q, c, m⟩, mem_writeFile.mpr (Or.inl rfl), rfl⟩
    · rcases fileExists_iff.mp h with ⟨f, hf, hfp⟩
      by_cases hp : f.path = p
      · exact fileExists_iff.mpr ⟨⟨p, c, m⟩, mem_writeFile.mpr (Or.inl rfl), hp ▸ hfp⟩
      · exact fileExists_iff.mpr ⟨f, mem_writeFile.mpr (Or.inr ⟨hf, hp⟩), hfp⟩

theorem findFile_writeFile_self (files : List MFile) (p : RelPath) (c : Int) (m : ℚ) :
    findFile (writeFile files p c m) p = some ⟨p, c, m⟩ := by
  simp [findFile, writeFile, List.find?_cons]

theorem findFile_mem {files : List MFile} {p : RelPath} {f : MFile}
    (h : findFile files p = some f) : f ∈ files ∧ f.path = p := by
  refine ⟨List.mem_of_find?_eq_some h, ?_⟩
  have := List.find?_some h
  simpa using this

theorem mem_upsertState {states : List MFileState} {itemId : String} {p : RelPath}
    {etag lm : Option String} {mt : Option ℚ} {h : Option Int} {s : MFileState}
    (hs : s ∈ upsertState states itemId p etag lm mt h) :
    s = ⟨p, itemId, etag, lm, mt, h⟩ ∨ s ∈ states := by
  rw [upsertState] at hs
  split at hs
  · clear * - hs
    induction states with
    | nil => simp [replaceFirstState] at hs
    | cons t ts ih =>
      rw [replaceFirstState] at hs
      split at hs
      · rcases List.mem_cons.mp hs with h | h
        · exact Or.inl h
        · exact Or.inr (List.mem_cons_of_mem _ h)
      · rcases List.mem_cons.mp hs with h | h
        · exact Or.inr (h ▸ List.mem_cons_self _ _)
        · rcases ih h with h' | h'
          · exact Or.inl h'
          · exact Or.inr (List.mem_cons_of_mem _ h')
  · rcases List.mem_append.mp hs with h | h
    · exact Or.inr h
    · exact Or.inl (by simpa using h)

theorem self_mem_upsertState (states : List MFileState) (itemId : String) (p : RelPath)
    (etag lm : Option String) (mt : Option ℚ) (h : Option Int) :
    (⟨p, itemId, etag, lm, mt, h⟩ : MFileState) ∈ upsertState states itemId p etag lm mt h := by
  rw [upsertState]
  split
  · next hany =>
    rcases List.any_eq_true.mp hany with ⟨t, ht, htp⟩
    clear * - ht htp
    induction states with
    | nil => cases ht
    | cons u us ih =>
      rw [replaceFirstState]
      split
      · exact List.mem_cons_self _ _
      · next hne =>
        rcases List.mem_cons.mp ht with h' | h'
        · subst h'
          simp only [beq_iff_eq] at htp
          exact absurd (by simpa using htp) (by simpa using hne)
        · exact List.mem_cons_of_mem _ (ih h')
  · exact List.mem_append.mpr (Or.inr (List.mem_singleton.mpr rfl))

theorem mem_upsertState_of_ne {states : List MFileState} {itemId : String} {p : RelPath}
    {etag lm : Option String} {mt : Option ℚ} {h : Option Int} {s : MFileState}
    (hs : s ∈ states) (hne : s.path ≠ p) :
    s ∈ upsertState states itemId p etag lm mt h := by
  rw [upsertState]
  split
  · clear * - hs hne
    induction states with
    | nil => cases hs
    | cons t ts ih =>
      rw [replaceFirstState]
      rcases List.mem_cons.mp hs with h' | h'
      · subst h'
        split
        · next he => exact absurd (by simpa using he) hne
        · exact List.mem_cons_self _ _
      · split
        · exact List.mem_cons_of_mem _ h'
        · exact List.mem_cons_of_mem _ (ih h')
  · exact List.mem_append.mpr (Or.inl hs)

theorem replaceFirstState_map_path (new : MFileState) (states : List MFileState) :
    (replaceFirstState new states).map (·.path) = states.map (·.path) := by
  induction states with
  | nil => rfl
  | cons t ts ih =>
    rw [replaceFirstState]
    split
    · next he => simp [List.map_cons, (by simpa using he : t.path = new.path)]
    · simp [List.map_cons, ih]

theorem upsertState_nodup {states : List MFileState} {itemId : String} {p : RelPath}
    {etag lm : Option String} {mt : Option ℚ} {h : Option Int}
    (hnd : (states.map (·.path)).Nodup) :
    ((upsertState states itemId p etag lm mt h).map (·.path)).Nodup := by
  rw [upsertState]
  split
  · rw [replaceFirstState_map_path]
    exact hnd
  · next hany =>
    rw [List.map_append]
    simp only [List.map_cons, List.map_nil]
    rw [List.nodup_append]
    refine ⟨hnd, List.nodup_singleton _, ?_⟩
    intro q hq hq'
    have hq'' : q = p := by simpa using hq'
    subst hq''
    rcases List.mem_map.mp hq with ⟨s, hsmem, hsp⟩
    have : (states.any fun s => s.path == q) = true :=
      List.any_eq_true.mpr ⟨s, hsmem, by simpa using hsp⟩
    simp [this] at hany

theorem removeState_nodup {states : List MFileState} {p : RelPath}
    (hnd : (states.map (·.path)).Nodup) :
    ((removeState states p).map (·.path)).Nodup :=
  (List.Sublist.map (·.path) (List.filter_sublist states)).nodup hnd

theorem handleDelete_nodup {files : List MFile} {k : RelPath}
    (hnd : (files.map (·.path)).Nodup) :
    ((handleDelete files k).map (·.path)).Nodup :=
  (List.Sublist.map (·.path) (List.filter_sublist files)).nodup hnd

theorem writeFile_nodup {files : List MFile} {p : RelPath} {c : Int} {m : ℚ}
    (hnd : (files.map (·.path)).Nodup) :
    ((writeFile files p c m).map (·.path)).Nodup := by
  rw [writeFile, List.map_cons, List.nodup_cons]
  constructor
  · intro hmem
    rcases List.mem_map.mp hmem with ⟨f, hf, hfp⟩
    rcases List.mem_filter.mp hf with ⟨-, hflt⟩
    simp [hfp] at hflt
  · exact (List.Sublist.map (·.path) (List.filter_sublist files)).nodup hnd

theorem findState_mem {known : List MFileState} {p : RelPath} {s : MFileState}
    (h : findState known p = some s) : s ∈ known ∧ s.path = p := by
  refine ⟨List.mem_of_find?_eq_some h, ?_⟩
  have := List.find?_some h
  simpa using this

theorem findState_eq_none {known : List MFileState} {p : RelPath}
    (h : findState known p = none) : ∀ s ∈ known, s.path ≠ p := by
  intro s hs
  have := List.find?_eq_none.mp h s hs
  simpa using this

theorem findState_of_mem_nodup {known : List MFileState} {s : MFileState}
    (hnd : (known.map (·.path)).Nodup) (hs : s ∈ known) :
    findState known s.path = some s := by
  induction known with
  | nil => cases hs
  | cons t ts ih =>
    rcases List.mem_cons.mp hs with h' | h'
    · subst h'
      rw [findState, List.find?_cons_of_pos _ (by simp)]
    · have hne : t.path ≠ s.path := by
        rw [List.map_cons, List.nodup_cons] at hnd
        intro he
        exact hnd.1 (he ▸ List.mem_map.mpr ⟨s, h', rfl⟩)
      rw [findState, List.find?_cons_of_neg _ (by simpa using hne)]
      have := ih (by rw [List.map_cons, List.nodup_cons] at hnd; exact hnd.2) h'
      rw [findState] at this
      exact this

theorem findFile_of_mem_nodup {files : List MFile} {f : MFile}
    (hnd : (files.map (·.path)).Nodup) (hf : f ∈ files) :
    findFile files f.path = some f := by
  induction files with
  | nil => cases hf
  | cons t ts ih =>
    rcases List.mem_cons.mp hf with h' | h'
    · subst h'
      rw [findFile, List.find?_cons_of_pos _ (by simp)]
    · have hne : t.path ≠ f.path := by
        rw [List.map_cons, List.nodup_cons] at hnd
        intro he
        exact hnd.1 (he ▸ List.mem_map.mpr ⟨f, h', rfl⟩)
      rw [findFile, List.find?_cons_of_neg _ (by simpa using hne)]
      have := ih (by rw [List.map_cons, List.nodup_cons] at hnd; exact hnd.2) h'
      rw [findFile] at this
      exact this

theorem changedFile_self (p : RelPath) (itemId : String) (etag lm : Option String)
    (c : Int) (m : ℚ) :
    changedFile (some ⟨p, itemId, etag, lm, some m, some c⟩) c m = false := by
  have h1 : ¬(|m - m| > (1 : ℚ) / 1000) := by
    rw [sub_self, abs_zero]
    norm_num
  simp [changedFile, mtimeTruthy, h1]

theorem dedupKeepLast_eq_self {states : List MFileState}
    (hnd : (states.map (·.path)).Nodup) : dedupKeepLast states = states := by
  induction states with
  | nil => rfl
  | cons s ss ih =>
    rw [List.map_cons, List.nodup_cons] at hnd
    rw [dedupKeepLast]
    rw [if_neg, ih hnd.2]
    intro hany
    rcases List.any_eq_true.mp hany with ⟨t, ht, htp⟩
    exact hnd.1 (List.mem_map.mpr ⟨t, ht, by simpa using htp⟩)

theorem detectGo_cons (known : List MFileState) (f : MFile) (fs : List MFile) :
    detectGo known (f :: fs)
      = (if changedFile (findState known f.path) f.hash f.mtime then
          (⟨f.path, findState known f.path, some f.hash⟩
              :: (detectGo (removeStatesAt known f.path) fs).1,
            (detectGo (removeStatesAt known f.path) fs).2)
        else detectGo (removeStatesAt known f.path) fs) := by
  rcases hdg : detectGo (removeStatesAt known f.path) fs with ⟨rest, leftover⟩
  rw [detectGo, hdg]

theorem detectGo_snd_cons (known : List MFileState) (f : MFile) (fs : List MFile) :
    (detectGo known (f :: fs)).2 = (detectGo (removeStatesAt known f.path) fs).2 := by
  rw [detectGo_cons]
  split <;> rfl

theorem detectGo_fst_cons (known : List MFileState) (f : MFile) (fs : List MFile) :
    (detectGo known (f :: fs)).1
      = (if changedFile (findState known f.path) f.hash f.mtime then
          [⟨f.path, findState known f.path, some f.hash⟩] else [])
        ++ (detectGo (removeStatesAt known f.path) fs).1 := by
  rw [detectGo_cons]
  split <;> simp

theorem mem_removeStatesAt {known : List MFileState} {p : RelPath} {s : MFileState} :
    s ∈ removeStatesAt known p ↔ s ∈ known ∧ s.path ≠ p := by
  simp [removeStatesAt, List.mem_filter]

theorem detectGo_leftover_subset (known : List MFileState) (files : List MFile) :
    ∀ s ∈ (detectGo known files).2, s ∈ known := by
  induction files generalizing known with
  | nil => intro s hs; exact hs
  | cons hd fs ih =>
    intro s hs
    rw [detectGo_snd_cons] at hs
    exact (mem_removeStatesAt.mp (ih (removeStatesAt known hd.path) s hs)).1

theorem detectGo_leftover_no_file (known : List MFileState) (files : List MFile) :
    ∀ s ∈ (detectGo known files).2, ∀ f ∈ files, f.path ≠ s.path := by
  induction files generalizing known with
  | nil => intro s hs f hf; cases hf
  | cons hd fs ih =>
    intro s hs g hg
    rw [detectGo_snd_cons] at hs
    rcases List.mem_cons.mp hg with h' | h'
    · subst h'
      have hin := detectGo_leftover_subset (removeStatesAt known g.path) fs s hs
      exact fun he => (mem_removeStatesAt.mp hin).2 he.symm
    · exact ih (removeStatesAt known hd.path) s hs g h'

theorem detectGo_leftover_of_no_file {known : List MFileState} {files : List MFile}
    {s : MFileState} (hs : s ∈ known) (h : ∀ f ∈ files, f.path ≠ s.path) :
    s ∈ (detectGo known files).2 := by
  induction files generalizing known with
  | nil => exact hs
  | cons hd fs ih =>
    rw [detectGo_snd_cons]
    exact ih (mem_removeStatesAt.mpr ⟨hs, (h hd (List.mem_cons_self _ _)).symm⟩)
      (fun g hg => h g (List.mem_cons_of_mem _ hg))

theorem detectGo_changes_have_file (known : List MFileState) (files : List MFile) :
    ∀ lc ∈ (detectGo known files).1, ∃ f ∈ files, lc.path = f.path := by
  induction files generalizing known with
  | nil => intro lc hlc; cases hlc
  | cons hd fs ih =>
    intro lc hlc
    rw [detectGo_fst_cons] at hlc
    rcases List.mem_append.mp hlc with h' | h'
    · split at h'
      · rcases List.mem_singleton.mp h' with rfl
        exact ⟨hd, List.mem_cons_self _ _, rfl⟩
      · cases h'
    · rcases ih (removeStatesAt known hd.path) lc h' with ⟨g, hg, hgp⟩
      exact ⟨g, List.mem_cons_of_mem _ hg, hgp⟩

theorem fileExists_cons_ne {f : MFile} {fs : List MFile} {p : RelPath}
    (h : fileExists (f :: fs) p = true) (hne : f.path ≠ p) : fileExists fs p = true := by
  rcases fileExists_iff.mp h with ⟨g, hg, hgp⟩
  rcases List.mem_cons.mp hg with rfl | hg'
  · exact absurd hgp hne
  · exact fileExists_iff.mpr ⟨g, hg', hgp⟩

theorem detectGo_cover (known : List MFileState) (files : List MFile)
    (hndF : (files.map (·.path)).Nodup) :
    ∀ f ∈ files,
      (∃ s ∈ known, s.path = f.path ∧ changedFile (some s) f.hash f.mtime = false)
        ∨ f.path ∈ (detectGo known files).1.map (·.path) := by
  induction files generalizing known with
  | nil => intro f hf; cases hf
  | cons hd fs ih =>
    have hndtl : (fs.map (·.path)).Nodup := by
      rw [List.map_cons, List.nodup_cons] at hndF
      exact hndF.2
    intro f hf
    rcases List.mem_cons.mp hf with rfl | h'
    · cases hch : changedFile (findState known f.path) f.hash f.mtime with
      | false =>
        cases hfs : findState known f.path with
        | none => rw [hfs] at hch; simp [changedFile] at hch
        | some s =>
          rcases findState_mem hfs with ⟨hsmem, hsp⟩
          exact Or.inl ⟨s, hsmem, hsp, by rw [hfs] at hch; exact hch⟩
      | true =>
        refine Or.inr ?_
        rw [detectGo_fst_cons, if_pos hch]
        simp
    · rcases ih (removeStatesAt known hd.path) hndtl f h' with hleft | hright
      · rcases hleft with ⟨s, hsmem, hsp, hsc⟩
        exact Or.inl ⟨s, (mem_removeStatesAt.mp hsmem).1, hsp, hsc⟩
      · refine Or.inr ?_
        rw [detectGo_fst_cons, List.map_append]
        exact List.mem_append.mpr (Or.inr hright)

theorem detectGo_changes_nodup (known : List MFileState) (files : List MFile)
    (hndF : (files.map (·.path)).Nodup) :
    ((detectGo known files).1.map (·.path)).Nodup := by
  induction files generalizing known with
  | nil => simp [detectGo]
  | cons hd fs ih =>
    rw [List.map_cons, List.nodup_cons] at hndF
    have htl := ih (removeStatesAt known hd.path) hndF.2
    rw [detectGo_fst_cons, List.map_append]
    split
    · simp only [List.map_cons, List.map_nil]
      rw [List.singleton_append, List.nodup_cons]
      refine ⟨?_, htl⟩
      intro hmem
      rcases List.mem_map.mp hmem with ⟨lc, hlc, hlcp⟩
      rcases detectGo_changes_have_file _ _ lc hlc with ⟨g, hg, hgp⟩
      exact hndF.1 (List.mem_map.mpr ⟨g, hg, by rw [← hgp, hlcp]⟩)
    · simpa using htl

theorem detectGo_leftover_sublist (known : List MFileState) (files : List MFile) :
    List.Sublist (detectGo known files).2 known := by
  induction files generalizing known with
  | nil => exact List.Sublist.refl _
  | cons hd fs ih =>
    rw [detectGo_snd_cons]
    exact (ih (removeStatesAt known hd.path)).trans (List.filter_sublist known)

theorem detectGo_changes_state_none (known : List MFileState) (files : List MFile)
    (hndF : (files.map (·.path)).Nodup) :
    ∀ lc ∈ (detectGo known files).1, lc.state = none →
      ∀ s ∈ known, s.path ≠ lc.path := by
  induction files generalizing known with
  | nil => intro lc hlc; cases hlc
  | cons hd fs ih =>
    rw [List.map_cons, List.nodup_cons] at hndF
    intro lc hlc hnone s hs
    rw [detectGo_fst_cons] at hlc
    rcases List.mem_append.mp hlc with h' | h'
    · split at h'
      · rcases List.mem_singleton.mp h' with rfl
        simp only at hnone
        exact (findState_eq_none hnone s hs)
      · cases h'
    · rcases detectGo_changes_have_file _ _ lc h' with ⟨g, hg, hgp⟩
      by_cases hsp : s.path = hd.path
      · rw [hsp, hgp]
        intro he
        exact hndF.1 (List.mem_map.mpr ⟨g, hg, he.symm⟩)
      · exact ih (removeStatesAt known hd.path) hndF.2 lc h' hnone s
          (mem_removeStatesAt.mpr ⟨hs, hsp⟩)

theorem detectGo_eq_nil (files : List MFile) (known : List MFileState)
    (hndF : (files.map (·.path)).Nodup) (hndK : (known.map (·.path)).Nodup)
    (h1 : ∀ f ∈ files, ∃ s ∈ known, s.path = f.path ∧
      changedFile (some s) f.hash f.mtime = false)
    (h2 : ∀ s ∈ known, fileExists files s.path = true) :
    detectGo known files = ([], []) := by
  induction files generalizing known with
  | nil =>
    cases known with
    | nil => rfl
    | cons s ss =>
      have := h2 s (List.mem_cons_self _ _)
      simp [fileExists] at this
  | cons hd fs ih =>
    rw [List.map_cons, List.nodup_cons] at hndF
    obtain ⟨s, hsmem, hsp, hsc⟩ := h1 hd (List.mem_cons_self _ _)
    have hfind : findState known hd.path = some s := by
      rw [← hsp]
      exact findState_of_mem_nodup hndK hsmem
    rw [detectGo_cons, hfind, if_neg (by simp [hsc])]
    refine ih (removeStatesAt known hd.path) hndF.2
      (((List.filter_sublist known).map (·.path)).nodup hndK) ?_ ?_
    · intro f hf
      obtain ⟨s', hs'mem, hs'p, hs'c⟩ := h1 f (List.mem_cons_of_mem _ hf)
      refine ⟨s', mem_removeStatesAt.mpr ⟨hs'mem, ?_⟩, hs'p, hs'c⟩
      rw [hs'p]
      intro he
      exact hndF.1 (List.mem_map.mpr ⟨f, hf, he⟩)
    · intro s' hs'
      rcases mem_removeStatesAt.mp hs' with ⟨hs'mem, hs'ne⟩
      exact fileExists_cons_ne (h2 s' hs'mem) (fun he => hs'ne he.symm)

theorem detect_paths_nodup (states : List MFileState) (files : List MFile)
    (hndS : (states.map (·.path)).Nodup) (hndF : (files.map (·.path)).Nodup) :
    ((detectLocalChanges states files).map (·.path)).Nodup := by
  rw [detectLocalChanges, dedupKeepLast_eq_self hndS, List.map_append]
  rw [List.nodup_append]
  refine ⟨detectGo_changes_nodup _ _ hndF, ?_, ?_⟩
  · rw [List.map_map]
    exact ((detectGo_leftover_sublist states files).map (·.path)).nodup hndS
  · intro q hq hq'
    rcases List.mem_map.mp hq with ⟨lc, hlc, hlcp⟩
    rcases detectGo_changes_have_file _ _ lc hlc with ⟨f, hf, hfp⟩
    rw [List.map_map] at hq'
    rcases List.mem_map.mp hq' with ⟨s, hsmem, hsp⟩
    refine detectGo_leftover_no_file states files s hsmem f hf ?_
    show f.path = s.path
    have h1 : lc.path = q := hlcp
    have h2 : s.path = q := hsp
    rw [← hfp, h1, h2]

theorem mem_map_filter_path {L : List MLocalChange} {k q : RelPath}
    (hq : q ∈ L.map (·.path)) (hne : q ≠ k) :
    q ∈ (L.filter (fun c => !(c.path == k))).map (·.path) := by
  rcases List.mem_map.mp hq with ⟨c, hc, rfl⟩
  exact List.mem_map.mpr ⟨c, List.mem_filter.mpr ⟨hc, by simpa using hne⟩, rfl⟩

theorem mem_of_mem_filterL {L : List MLocalChange} {k : RelPath} {c : MLocalChange}
    (hc : c ∈ L.filter (fun c => !(c.path == k))) : c ∈ L ∧ c.path ≠ k := by
  rcases List.mem_filter.mp hc with ⟨h1, h2⟩
  exact ⟨h1, by simpa using h2⟩

theorem filterL_nodup {L : List MLocalChange} {k : RelPath}
    (h : (L.map (·.path)).Nodup) :
    ((L.filter (fun c => !(c.path == k))).map (·.path)).Nodup :=
  ((List.filter_sublist L).map (·.path)).nodup h

theorem recordFileState_writeFile (files : List MFile) (states : List MFileState)
    (item : MItem) (k : RelPath) (c : Int) (m : ℚ) :
    recordFileState (writeFile files k c m) states item k
      = upsertState states item.id k item.etag item.lastModified (some m) (some c) := by
  rw [recordFileState, findFile_writeFile_self]
  rfl

theorem RunInv.afterLocalDelete {env : MEnv} {rs : RunState} {L : List MLocalChange}
    (h : RunInv env rs L) (k : RelPath)
    (hfp : ∀ f ∈ rs.files, isPrefB k f.path = true → f.path = k)
    (_hsp : ∀ s ∈ rs.states, isPrefB k s.path = true → s.path = k) :
    RunInv env (applyLocalDelete rs k k) (L.filter (fun c => !(c.path == k))) := by
  constructor
  · exact removeState_nodup h.ndS
  · exact handleDelete_nodup h.ndF
  · exact filterL_nodup h.ndL
  · intro s hs
    rcases mem_removeState.mp hs with ⟨hm, hneq⟩
    rcases h.sOK s hm with hex | hL
    · rcases fileExists_iff.mp hex with ⟨f, hf, hfpth⟩
      refine Or.inl (fileExists_iff.mpr ⟨f, mem_handleDelete.mpr ⟨hf, ?_⟩, hfpth⟩)
      cases hpr : isPrefB k f.path
      · rfl
      · exact absurd (hfpth ▸ hfp f hf hpr) hneq
    · exact Or.inr (mem_map_filter_path hL hneq)
  · intro hp f hf
    rcases mem_handleDelete.mp hf with ⟨hm, hpref⟩
    have hfne : f.path ≠ k := by
      intro he
      rw [he] at hpref
      rw [isPrefB_refl] at hpref
      cases hpref
    rcases h.fOK hp f hm with ⟨s, hsmem, hsp', hsc⟩ | hL
    · exact Or.inl ⟨s, mem_removeState.mpr ⟨hsmem, hsp' ▸ hfne⟩, hsp', hsc⟩
    · exact Or.inr (mem_map_filter_path hL hfne)
  · intro lc hlc hnone s hs
    exact h.noSt lc (mem_of_mem_filterL hlc).1 hnone s (mem_removeState.mp hs).1

theorem RunInv.afterDownload {env : MEnv} {rs : RunState} {L : List MLocalChange}
    (h : RunInv env rs L) (item : MItem) (k : RelPath) :
    RunInv env (downloadTo env rs item k) (L.filter (fun c => !(c.path == k))) := by
  have hrec := recordFileState_writeFile rs.files rs.states item k (env.dl item.id)
    env.writeMtime
  constructor
  · show ((recordFileState _ rs.states item k).map (·.path)).Nodup
    rw [hrec]
    exact upsertState_nodup h.ndS
  · exact writeFile_nodup h.ndF
  · exact filterL_nodup h.ndL
  · intro s hs
    rw [show (downloadTo env rs item k).states = _ from hrec] at hs
    rcases mem_upsertState hs with rfl | hm
    · exact Or.inl (fileExists_writeFile_iff.mpr (Or.inl rfl))
    · rcases h.sOK s hm with hex | hL
      · exact Or.inl (fileExists_writeFile_iff.mpr (Or.inr hex))
      · by_cases hk : s.path = k
        · exact Or.inl (fileExists_writeFile_iff.mpr (Or.inl hk))
        · exact Or.inr (mem_map_filter_path hL hk)
  · intro hp f hf
    rcases mem_writeFile.mp hf with rfl | ⟨hm, hne⟩
    · refine Or.inl ⟨⟨k, item.id, item.etag, item.lastModified, some env.writeMtime,
        some (env.dl item.id)⟩, ?_, rfl, changedFile_self _ _ _ _ _ _⟩
      rw [show (downloadTo env rs item k).states = _ from hrec]
      exact self_mem_upsertState _ _ _ _ _ _ _
    · rcases h.fOK hp f hm with ⟨s, hsmem, hsp', hsc⟩ | hL
      · refine Or.inl ⟨s, ?_, hsp', hsc⟩
        rw [show (downloadTo env rs item k).states = _ from hrec]
        exact mem_upsertState_of_ne hsmem (hsp' ▸ hne)
      · exact Or.inr (mem_map_filter_path hL hne)
  · intro lc hlc hnone s hs
    rcases mem_of_mem_filterL hlc with ⟨hlcm, hlck⟩
    rw [show (downloadTo env rs item k).states = _ from hrec] at hs
    rcases mem_upsertState hs with rfl | hm
    · exact fun he => hlck he.symm
    · exact h.noSt lc hlcm hnone s hm

theorem RunInv.afterUpload {env : MEnv} {rs : RunState} {L : List MLocalChange}
    (h : RunInv env rs L) (k : RelPath) (hex : fileExists rs.files k = true) :
    RunInv env (uploadFrom env rs k) (L.filter (fun c => !(c.path == k))) := by
  rcases fileExists_iff.mp hex with ⟨f0, hf0, hf0p⟩
  have hfind : findFile rs.files k = some f0 := hf0p ▸ findFile_of_mem_nodup h.ndF hf0
  have hst : (uploadFrom env rs k).states
      = upsertState rs.states (env.uploadId k) k (env.uploadEtag k)
          (env.uploadLastModified k) (some f0.mtime) (some f0.hash) := by
    rw [uploadFrom]
    rw [hfind]
    rfl
  constructor
  · show ((uploadFrom env rs k).states.map (·.path)).Nodup
    rw [hst]
    exact upsertState_nodup h.ndS
  · exact h.ndF
  · exact filterL_nodup h.ndL
  · intro s hs
    rw [hst] at hs
    rcases mem_upsertState hs with rfl | hm
    · exact Or.inl hex
    · rcases h.sOK s hm with hex' | hL
      · exact Or.inl hex'
      · by_cases hk : s.path = k
        · exact Or.inl (hk ▸ hex)
        · exact Or.inr (mem_map_filter_path hL hk)
  · intro hp f hf
    by_cases hk : f.path = k
    · have hff : f = f0 := by
        refine List.inj_on_of_nodup_map h.ndF hf hf0 ?_
        show f.path = f0.path
        rw [hk, hf0p]
      refine Or.inl ⟨⟨k, env.uploadId k, env.uploadEtag k, env.uploadLastModified k,
        some f0.mtime, some f0.hash⟩, ?_, hk.symm, ?_⟩
      · rw [hst]
        exact self_mem_upsertState _ _ _ _ _ _ _
      · rw [hff]
        exact changedFile_self _ _ _ _ _ _
    · rcases h.fOK hp f hf with ⟨s, hsmem, hsp', hsc⟩ | hL
      · refine Or.inl ⟨s, ?_, hsp', hsc⟩
        rw [hst]
        exact mem_upsertState_of_ne hsmem (hsp' ▸ hk)
      · exact Or.inr (mem_map_filter_path hL hk)
  · intro lc hlc hnone s hs
    rcases mem_of_mem_filterL hlc with ⟨hlcm, hlck⟩
    rw [hst] at hs
    rcases mem_upsertState hs with rfl | hm
    · exact fun he => hlck he.symm
    · exact h.noSt lc hlcm hnone s hm

theorem RunInv.afterPropagateDelete {env : MEnv} {rs : RunState} {L : List MLocalChange}
    (h : RunInv env rs L) (k : RelPath) (hex : fileExists rs.files k = false) :
    RunInv env (propagateDeleteOp rs k) (L.filter (fun c => !(c.path == k))) := by
  constructor
  · exact removeState_nodup h.ndS
  · exact h.ndF
  · exact filterL_nodup h.ndL
  · intro s hs
    rcases mem_removeState.mp hs with ⟨hm, hneq⟩
    rcases h.sOK s hm with hex' | hL
    · exact Or.inl hex'
    · exact Or.inr (mem_map_filter_path hL hneq)
  · intro hp f hf
    have hfne : f.path ≠ k := by
      intro he
      have hmem : f ∈ rs.files := hf
      have hex' := fileExists_of_mem hmem
      rw [he] at hex'
      rw [hex'] at hex
      cases hex
    rcases h.fOK hp f hf with ⟨s, hsmem, hsp', hsc⟩ | hL
    · exact Or.inl ⟨s, mem_removeState.mpr ⟨hsmem, hsp' ▸ hfne⟩, hsp', hsc⟩
    · exact Or.inr (mem_map_filter_path hL hfne)
  · intro lc hlc hnone s hs
    exact h.noSt lc (mem_of_mem_filterL hlc).1 hnone s (mem_removeState.mp hs).1

theorem removeState_idem (states : List MFileState) (p : RelPath) :
    removeState (removeState states p) p = removeState states p := by
  simp only [removeState, List.filter_filter]
  apply List.filter_congr
  intro s _
  exact Bool.and_self _

theorem orphanStep_files (env : MEnv) (rs : RunState) (p : RelPath) :
    (orphanStep env rs p).files = rs.files := by
  rw [orphanStep]
  split <;> rfl

theorem orphanStep_states (env : MEnv) (rs : RunState) (p : RelPath) :
    (orphanStep env rs p).states = removeState rs.states p := by
  rw [orphanStep]
  split
  · exact removeState_idem _ _
  · rfl

theorem filter_ne_of_not_mem_paths {L : List MLocalChange} {k : RelPath}
    (h : k ∉ L.map (·.path)) : L.filter (fun c => !(c.path == k)) = L := by
  apply List.filter_eq_self.mpr
  intro c hc
  have : c.path ≠ k := fun he => h (List.mem_map.mpr ⟨c, hc, he⟩)
  simpa using this

theorem find_none_filter_eq {L : List MLocalChange} {k : RelPath}
    (h : L.find? (fun c => c.path == k) = none) :
    L.filter (fun c => !(c.path == k)) = L := by
  apply List.filter_eq_self.mpr
  intro c hc
  have := List.find?_eq_none.mp h c hc
  simpa using this

theorem cons_filter_self {lc : MLocalChange} {L : List MLocalChange}
    (hnd : ((lc :: L).map (·.path)).Nodup) :
    (lc :: L).filter (fun c => !(c.path == lc.path)) = L := by
  rw [List.filter_cons, if_neg (by simp)]
  rw [List.map_cons, List.nodup_cons] at hnd
  exact filter_ne_of_not_mem_paths hnd.1

theorem map_filter_subset {L : List MLocalChange} {k q : RelPath}
    (h : q ∈ (L.filter (fun c => !(c.path == k))).map (·.path)) :
    q ∈ L.map (·.path) := by
  rcases List.mem_map.mp h with ⟨c, hc, rfl⟩
  exact List.mem_map.mpr ⟨c, (mem_of_mem_filterL hc).1, rfl⟩

theorem resolveAction_applyRemoteDelete {policy direction : String}
    {le rd fo : Bool} {choice : String}
    (h : resolveConflictAction policy direction le rd fo choice
      = ConflictAction.applyRemoteDelete) : rd = true := by
  rw [resolveConflictAction] at h
  repeat' split at h
  all_goals first | assumption | cases h

theorem resolveAction_materializeFolder {policy direction : String}
    {le rd fo : Bool} {choice : String}
    (h : resolveConflictAction policy direction le rd fo choice
      = ConflictAction.materializeFolder) : rd = false ∧ fo = true := by
  rw [resolveConflictAction] at h
  repeat' split at h
  all_goals refine ⟨?_, ?_⟩ <;> simp_all

theorem resolveAction_upload {policy direction : String} {le rd fo : Bool}
    {choice : String}
    (h : resolveConflictAction policy direction le rd fo choice
      = ConflictAction.upload) : le = true := by
  rw [resolveConflictAction] at h
  repeat' split at h
  all_goals first | assumption | cases h

theorem resolveAction_propagateDelete {policy direction : String} {le rd fo : Bool}
    {choice : String}
    (h : resolveConflictAction policy direction le rd fo choice
      = ConflictAction.propagateDelete) : le = false := by
  rw [resolveConflictAction] at h
  repeat' split at h
  all_goals simp_all

theorem resolveAction_skip_remote {policy direction : String} {le rd fo : Bool}
    (h : resolveConflictAction policy direction le rd fo "remote"
      = ConflictAction.skip) : False := by
  rw [resolveConflictAction] at h
  repeat' split at h
  all_goals simp_all

theorem RunInv.afterOrphanDrop {env : MEnv} {rs rs' : RunState} {lc : MLocalChange}
    {L : List MLocalChange} (h : RunInv env rs (lc :: L))
    (hnofile : fileExists rs.files lc.path = false)
    (hfiles : rs'.files = rs.files)
    (hstates : rs'.states = removeState rs.states lc.path) :
    RunInv env rs' L := by
  constructor
  · rw [hstates]
    exact removeState_nodup h.ndS
  · rw [hfiles]
    exact h.ndF
  · have := h.ndL
    rw [List.map_cons, List.nodup_cons] at this
    exact this.2
  · intro s hs
    rw [hstates] at hs
    rcases mem_removeState.mp hs with ⟨hm, hneq⟩
    rcases h.sOK s hm with hex | hL
    · rw [hfiles]
      exact Or.inl hex
    · rw [List.map_cons] at hL
      rcases List.mem_cons.mp hL with he | hm'
      · exact absurd he hneq
      · exact Or.inr hm'
  · intro hp f hf
    rw [hfiles] at hf
    have hfne : f.path ≠ lc.path := by
      intro he
      have hex' := fileExists_of_mem hf
      rw [he] at hex'
      rw [hex'] at hnofile
      cases hnofile
    rcases h.fOK hp f hf with ⟨s, hsmem, hsp', hsc⟩ | hL
    · refine Or.inl ⟨s, ?_, hsp', hsc⟩
      rw [hstates]
      exact mem_removeState.mpr ⟨hsmem, hsp' ▸ hfne⟩
    · rw [List.map_cons] at hL
      rcases List.mem_cons.mp hL with he | hm'
      · exact absurd he hfne
      · exact Or.inr hm'
  · intro lc' hlc' hnone s hs
    rw [hstates] at hs
    exact h.noSt lc' (List.mem_cons_of_mem _ hlc') hnone s (mem_removeState.mp hs).1

theorem RunInv.dropHead {env : MEnv} {rs : RunState} {lc : MLocalChange}
    {L : List MLocalChange} (h : RunInv env rs (lc :: L))
    (hcase : (fileExists rs.files lc.path = true ∧ allowsPush env.direction = false)
      ∨ (fileExists rs.files lc.path = false ∧ lc.state = none)) :
    RunInv env rs L := by
  constructor
  · exact h.ndS
  · exact h.ndF
  · have := h.ndL
    rw [List.map_cons, List.nodup_cons] at this
    exact this.2
  · intro s hs
    rcases h.sOK s hs with hex | hL
    · exact Or.inl hex
    · rw [List.map_cons] at hL
      rcases List.mem_cons.mp hL with he | hm'
      · rcases hcase with ⟨hex, -⟩ | ⟨-, hnone⟩
        · exact Or.inl (he ▸ hex)
        · exact absurd he (h.noSt lc (List.mem_cons_self _ _) hnone s hs)
      · exact Or.inr hm'
  · intro hp f hf
    rcases h.fOK hp f hf with hml | hL
    · exact Or.inl hml
    · rw [List.map_cons] at hL
      rcases List.mem_cons.mp hL with he | hm'
      · rcases hcase with ⟨-, hpb⟩ | ⟨hnof, -⟩
        · rw [hp] at hpb
          cases hpb
        · have hex' := fileExists_of_mem hf
          rw [he] at hex'
          rw [hex'] at hnof
          cases hnof
      · exact Or.inr hm'
  · intro lc' hlc' hnone s hs
    exact h.noSt lc' (List.mem_cons_of_mem _ hlc') hnone s hs

theorem phaseB_inv (env : MEnv) :
    ∀ (L : List MLocalChange) (rs : RunState), RunInv env rs L →
      RunInv env (phaseB env L rs) [] := by
  intro L
  induction L with
  | nil => intro rs h; exact h
  | cons lc L ih =>
    intro rs h
    rw [phaseB]
    split
    · next h1 =>
      have hnof : fileExists rs.files lc.path = false := by
        have h1' := h1
        simp only [Bool.and_eq_true, Bool.not_eq_true'] at h1'
        exact h1'.2
      exact ih _ (h.afterOrphanDrop hnof (orphanStep_files env rs lc.path)
        (orphanStep_states env rs lc.path))
    · next h1 =>
      split
      · next h2 =>
        have h2' := h2
        simp only [Bool.and_eq_true] at h2'
        obtain ⟨hex, hpush⟩ := h2'
        have hup := h.afterUpload lc.path hex
        rw [cons_filter_self h.ndL] at hup
        exact ih _ hup
      · next h2 =>
        refine ih _ (h.dropHead ?_)
        cases hex : fileExists rs.files lc.path
        · right
          refine ⟨rfl, ?_⟩
          cases hst : lc.state with
          | none => rfl
          | some v =>
            exact absurd (by rw [hst, hex]; rfl) h1
        · left
          refine ⟨rfl, ?_⟩
          cases hpu : allowsPush env.direction
          · rfl
          · exact absurd (by rw [hex, hpu]; rfl) h2

theorem phaseA_inv (env : MEnv) (hpr : ∀ p, env.promptChoice p = "remote") :
    ∀ (todo : List (RelPath × MRemoteChange)) (rs : RunState) (L : List MLocalChange),
      RunInv env rs L →
      (∀ kv ∈ todo, kv.2.deleted = false → kv.2.item.isFolder = true →
        kv.1 ∉ L.map (·.path)) →
      (∀ kv ∈ todo, kv.2.deleted = true →
        (∀ f ∈ rs.files, isPrefB kv.1 f.path = true → f.path = kv.1) ∧
        (∀ s ∈ rs.states, isPrefB kv.1 s.path = true → s.path = kv.1) ∧
        (∀ kv' ∈ todo, isPrefB kv.1 kv'.1 = true → kv'.1 = kv.1)) →
      RunInv env (phaseA env todo rs L).1 (phaseA env todo rs L).2 := by
  intro todo
  induction todo with
  | nil => intro rs L hinv _ _; exact hinv
  | cons kv rest ih =>
    rcases kv with ⟨k, rc⟩
    intro rs L hinv hc1 hc2
    cases hfind : L.find? (fun c => c.path == k) with
    | some lc =>
      have hlcmem : lc ∈ L := List.mem_of_find?_eq_some hfind
      have hlck : lc.path = k := by simpa using List.find?_some hfind
      rw [phaseA, hfind]
      dsimp only
      rw [applyConflict, hpr lc.path]
      cases hact : resolveConflictAction env.policy env.direction
          (fileExists rs.files lc.path) rc.deleted rc.item.isFolder "remote" with
      | applyRemoteDelete =>
        have hdel : rc.deleted = true := resolveAction_applyRemoteDelete hact
        have hparts := hc2 (k, rc) (List.mem_cons_self _ _) hdel
        rw [hlck]
        refine ih (applyLocalDelete rs k k) (L.filter (fun c => !(c.path == k)))
          (hinv.afterLocalDelete k hparts.1 hparts.2.1) ?_ ?_
        · intro kv' hkv' hdel' hfo' hmem
          exact hc1 kv' (List.mem_cons_of_mem _ hkv') hdel' hfo' (map_filter_subset hmem)
        · intro kv' hkv' hdel'
          have hp' := hc2 kv' (List.mem_cons_of_mem _ hkv') hdel'
          refine ⟨?_, ?_, ?_⟩
          · intro f hf hpref
            exact hp'.1 f (mem_handleDelete.mp hf).1 hpref
          · intro s hs hpref
            exact hp'.2.1 s (mem_removeState.mp hs).1 hpref
          · intro kv'' hkv''
            exact hp'.2.2 kv'' (List.mem_cons_of_mem _ hkv'')
      | materializeFolder =>
        have hmf := resolveAction_materializeFolder hact
        exact absurd (List.mem_map.mpr ⟨lc, hlcmem, hlck⟩)
          (hc1 (k, rc) (List.mem_cons_self _ _) hmf.1 hmf.2)
      | download =>
        refine ih (downloadTo env rs rc.item k) (L.filter (fun c => !(c.path == k)))
          (hinv.afterDownload rc.item k) ?_ ?_
        · intro kv' hkv' hdel' hfo' hmem
          exact hc1 kv' (List.mem_cons_of_mem _ hkv') hdel' hfo' (map_filter_subset hmem)
        · intro kv' hkv' hdel'
          have hp' := hc2 kv' (List.mem_cons_of_mem _ hkv') hdel'
          refine ⟨?_, ?_, ?_⟩
          · intro f hf hpref
            rcases mem_writeFile.mp hf with rfl | ⟨hm, -⟩
            · exact hp'.2.2 (k, rc) (List.mem_cons_self _ _) hpref
            · exact hp'.1 f hm hpref
          · intro s hs hpref
            rcases mem_upsertState hs with rfl | hm
            · exact hp'.2.2 (k, rc) (List.mem_cons_self _ _) hpref
            · exact hp'.2.1 s hm hpref
          · intro kv'' hkv''
            exact hp'.2.2 kv'' (List.mem_cons_of_mem _ hkv'')
      | upload =>
        have hle : fileExists rs.files lc.path = true := resolveAction_upload hact
        rw [hlck] at hle
        rw [hlck]
        refine ih (uploadFrom env rs k) (L.filter (fun c => !(c.path == k)))
          (hinv.afterUpload k hle) ?_ ?_
        · intro kv' hkv' hdel' hfo' hmem
          exact hc1 kv' (List.mem_cons_of_mem _ hkv') hdel' hfo' (map_filter_subset hmem)
        · intro kv' hkv' hdel'
          have hp' := hc2 kv' (List.mem_cons_of_mem _ hkv') hdel'
          refine ⟨?_, ?_, ?_⟩
          · intro f hf hpref
            exact hp'.1 f hf hpref
          · intro s hs hpref
            rcases mem_upsertState hs with rfl | hm
            · exact hp'.2.2 (k, rc) (List.mem_cons_self _ _) hpref
            · exact hp'.2.1 s hm hpref
          · intro kv'' hkv''
            exact hp'.2.2 kv'' (List.mem_cons_of_mem _ hkv'')
      | propagateDelete =>
        have hle : fileExists rs.files lc.path = false :=
          resolveAction_propagateDelete hact
        rw [hlck] at hle
        rw [hlck]
        refine ih (propagateDeleteOp rs k) (L.filter (fun c => !(c.path == k)))
          (hinv.afterPropagateDelete k hle) ?_ ?_
        · intro kv' hkv' hdel' hfo' hmem
          exact hc1 kv' (List.mem_cons_of_mem _ hkv') hdel' hfo' (map_filter_subset hmem)
        · intro kv' hkv' hdel'
          have hp' := hc2 kv' (List.mem_cons_of_mem _ hkv') hdel'
          refine ⟨?_, ?_, ?_⟩
          · intro f hf hpref
            exact hp'.1 f hf hpref
          · intro s hs hpref
            exact hp'.2.1 s (mem_removeState.mp hs).1 hpref
          · intro kv'' hkv''
            exact hp'.2.2 kv'' (List.mem_cons_of_mem _ hkv'')
      | skip => exact (resolveAction_skip_remote hact).elim
    | none =>
      have hLid : L.filter (fun c => !(c.path == k)) = L := find_none_filter_eq hfind
      rw [phaseA, hfind]
      dsimp only
      split
      · split
        · next hdel =>
          have hparts := hc2 (k, rc) (List.mem_cons_self _ _) hdel
          have h0 := hinv.afterLocalDelete k hparts.1 hparts.2.1
          rw [hLid] at h0
          refine ih (applyLocalDelete rs k k) L h0 ?_ ?_
          · intro kv' hkv' hdel' hfo' hmem
            exact hc1 kv' (List.mem_cons_of_mem _ hkv') hdel' hfo' hmem
          · intro kv' hkv' hdel'
            have hp' := hc2 kv' (List.mem_cons_of_mem _ hkv') hdel'
            refine ⟨?_, ?_, ?_⟩
            · intro f hf hpref
              exact hp'.1 f (mem_handleDelete.mp hf).1 hpref
            · intro s hs hpref
              exact hp'.2.1 s (mem_removeState.mp hs).1 hpref
            · intro kv'' hkv''
              exact hp'.2.2 kv'' (List.mem_cons_of_mem _ hkv'')
        · split
          · refine ih rs L hinv ?_ ?_
            · intro kv' hkv' hdel' hfo' hmem
              exact hc1 kv' (List.mem_cons_of_mem _ hkv') hdel' hfo' hmem
            · intro kv' hkv' hdel'
              have hp' := hc2 kv' (List.mem_cons_of_mem _ hkv') hdel'
              exact ⟨hp'.1, hp'.2.1,
                fun kv'' hkv'' => hp'.2.2 kv'' (List.mem_cons_of_mem _ hkv'')⟩
          · have h0 := hinv.afterDownload rc.item k
            rw [hLid] at h0
            refine ih (downloadTo env rs rc.item k) L h0 ?_ ?_
            · intro kv' hkv' hdel' hfo' hmem
              exact hc1 kv' (List.mem_cons_of_mem _ hkv') hdel' hfo' hmem
            · intro kv' hkv' hdel'
              have hp' := hc2 kv' (List.mem_cons_of_mem _ hkv') hdel'
              refine ⟨?_, ?_, ?_⟩
              · intro f hf hpref
                rcases mem_writeFile.mp hf with rfl | ⟨hm, -⟩
                · exact hp'.2.2 (k, rc) (List.mem_cons_self _ _) hpref
                · exact hp'.1 f hm hpref
              · intro s hs hpref
                rcases mem_upsertState hs with rfl | hm
                · exact hp'.2.2 (k, rc) (List.mem_cons_self _ _) hpref
                · exact hp'.2.1 s hm hpref
              · intro kv'' hkv''
                exact hp'.2.2 kv'' (List.mem_cons_of_mem _ hkv'')
      · refine ih rs L hinv ?_ ?_
        · intro kv' hkv' hdel' hfo' hmem
          exact hc1 kv' (List.mem_cons_of_mem _ hkv') hdel' hfo' hmem
        · intro kv' hkv' hdel'
          have hp' := hc2 kv' (List.mem_cons_of_mem _ hkv') hdel'
          exact ⟨hp'.1, hp'.2.1,
            fun kv'' hkv'' => hp'.2.2 kv'' (List.mem_cons_of_mem _ hkv'')⟩

theorem initial_RunInv (env : MEnv) (files0 : List MFile) (states0 : List MFileState)
    (hndS : (states0.map (·.path)).Nodup) (hndF : (files0.map (·.path)).Nodup) :
    RunInv env ⟨files0, states0, RunOps.zero⟩ (detectLocalChanges states0 files0) := by
  constructor
  · exact hndS
  · exact hndF
  · exact detect_paths_nodup states0 files0 hndS hndF
  · intro s hs
    cases hex : fileExists files0 s.path with
    | true => exact Or.inl rfl
    | false =>
      refine Or.inr ?_
      rw [detectLocalChanges, dedupKeepLast_eq_self hndS, List.map_append]
      refine List.mem_append.mpr (Or.inr ?_)
      rw [List.map_map]
      refine List.mem_map.mpr ⟨s, ?_, rfl⟩
      apply detectGo_leftover_of_no_file hs
      intro f hf he
      have hx := fileExists_of_mem hf
      rw [he] at hx
      rw [hx] at hex
      cases hex
  · intro hp f hf
    rcases detectGo_cover (dedupKeepLast states0) files0 hndF f hf with
      ⟨s, hsmem, hsp, hsc⟩ | hR
    · rw [dedupKeepLast_eq_self hndS] at hsmem
      exact Or.inl ⟨s, hsmem, hsp, hsc⟩
    · refine Or.inr ?_
      rw [detectLocalChanges, List.map_append]
      exact List.mem_append.mpr (Or.inl hR)
  · intro lc hlc hnone s hs
    rw [detectLocalChanges] at hlc
    rcases List.mem_append.mp hlc with hch | hlf
    · refine detectGo_changes_state_none (dedupKeepLast states0) files0 hndF lc hch
        hnone s ?_
      rw [dedupKeepLast_eq_self hndS]
      exact hs
    · rcases List.mem_map.mp hlf with ⟨t, htm, hte⟩
      rw [← hte] at hnone
      simp at hnone

theorem phaseB_noop (env : MEnv) (hp : allowsPush env.direction = false) :
    ∀ (L : List MLocalChange) (rs : RunState),
      (∀ lc ∈ L, fileExists rs.files lc.path = true) →
      phaseB env L rs = rs := by
  intro L
  induction L with
  | nil => intro rs _; rfl
  | cons lc rest ih =>
    intro rs hex
    have h1 : (lc.state.isSome && !(fileExists rs.files lc.path)) = false := by
      rw [hex lc (List.mem_cons_self _ _)]
      simp
    have h2 : (fileExists rs.files lc.path && allowsPush env.direction) = false := by
      rw [hp]
      simp
    rw [phaseB, if_neg (by rw [h1]; exact Bool.false_ne_true),
      if_neg (by rw [h2]; exact Bool.false_ne_true)]
    exact ih rs (fun c hc => hex c (List.mem_cons_of_mem _ hc))

theorem detect_eq_nil_full (states : List MFileState) (files : List MFile)
    (hndS : (states.map (·.path)).Nodup) (hndF : (files.map (·.path)).Nodup)
    (h1 : ∀ f ∈ files, ∃ s ∈ states, s.path = f.path ∧
      changedFile (some s) f.hash f.mtime = false)
    (h2 : ∀ s ∈ states, fileExists files s.path = true) :
    detectLocalChanges states files = [] := by
  rw [detectLocalChanges, dedupKeepLast_eq_self hndS,
    detectGo_eq_nil files states hndF hndS h1 h2]
  rfl

theorem runDelta_noop (env : MEnv) (files : List MFile) (states : List MFileState)
    (hndS : (states.map (·.path)).Nodup) (hndF : (files.map (·.path)).Nodup)
    (hsOK : ∀ s ∈ states, fileExists files s.path = true)
    (hfOK : allowsPush env.direction = true → ∀ f ∈ files,
      ∃ s ∈ states, s.path = f.path ∧ changedFile (some s) f.hash f.mtime = false) :
    runDelta env files states [] = ⟨files, states, RunOps.zero⟩ := by
  show phaseB env (detectLocalChanges states files) ⟨files, states, RunOps.zero⟩ = _
  cases hp : allowsPush env.direction with
  | true =>
    rw [detect_eq_nil_full states files hndS hndF (hfOK hp) hsOK]
    rfl
  | false =>
    apply phaseB_noop env hp
    intro lc hlc
    rw [detectLocalChanges, dedupKeepLast_eq_self hndS] at hlc
    rcases List.mem_append.mp hlc with hch | hlf
    · rcases detectGo_changes_have_file states files lc hch with ⟨f, hf, hfp⟩
      show fileExists files lc.path = true
      rw [hfp]
      exact fileExists_of_mem hf
    · rcases List.mem_map.mp hlf with ⟨t, htm, hte⟩
      exfalso
      have hnofile := detectGo_leftover_no_file states files t htm
      rcases fileExists_iff.mp (hsOK t (detectGo_leftover_subset states files t htm))
        with ⟨f, hf, hfp⟩
      exact hnofile f hf hfp

/-- C3 (amended): running a delta-based folder sync twice in succession —
with no intervening local modification, an empty second delta feed, prompts
resolved non-interactively, path-unique store rows and local files, and a
first delta feed that contains no folder upsert conflicting with a pending
local change and no deletion above other tracked files, states or change
keys — performs zero downloads, uploads and deletions the second time and
leaves both the local files and the FileState set identical. -/
theorem c3_idempotent_amended (env : MEnv) (files0 : List MFile)
    (states0 : List MFileState) (rcs : List MRemoteChange)
    (hpr : ∀ p, env.promptChoice p = "remote")
    (hndS : (states0.map (·.path)).Nodup) (hndF : (files0.map (·.path)).Nodup)
    (hc1 : ∀ kv ∈ remoteMap env.display rcs, kv.2.deleted = false →
      kv.2.item.isFolder = true →
      kv.1 ∉ (detectLocalChanges states0 files0).map (·.path))
    (hc2 : ∀ kv ∈ remoteMap env.display rcs, kv.2.deleted = true →
      (∀ f ∈ files0, isPrefB kv.1 f.path = true → f.path = kv.1) ∧
      (∀ s ∈ states0, isPrefB kv.1 s.path = true → s.path = kv.1) ∧
      (∀ kv' ∈ remoteMap env.display rcs, isPrefB kv.1 kv'.1 = true →
        kv'.1 = kv.1)) :
    runDelta env (runDelta env files0 states0 rcs).files
        (runDelta env files0 states0 rcs).states []
      = ⟨(runDelta env files0 states0 rcs).files,
         (runDelta env files0 states0 rcs).states, RunOps.zero⟩ := by
  have h0 := initial_RunInv env files0 states0 hndS hndF
  have hA := phaseA_inv env hpr (remoteMap env.display rcs)
    ⟨files0, states0, RunOps.zero⟩ (detectLocalChanges states0 files0) h0 hc1 hc2
  have hB : RunInv env (runDelta env files0 states0 rcs) [] :=
    phaseB_inv env _ _ hA
  refine runDelta_noop env _ _ hB.ndS hB.ndF ?_ ?_
  · intro s hs
    rcases hB.sOK s hs with hex | hm
    · exact hex
    · simp at hm
  · intro hp f hf
    rcases hB.fOK hp f hf with hml | hm
    · exact hml
    · simp at hm

/-- Witness for the amended C3: a first run that downloads one new file,
then a second run with an empty delta feed, leaving everything unchanged. -/
theorem c3_idempotent_amended_witness :
    runDelta c3wenv (runDelta c3wenv [] [] [c3witnessItem]).files
        (runDelta c3wenv [] [] [c3witnessItem]).states []
      = ⟨(runDelta c3wenv [] [] [c3witnessItem]).files,
         (runDelta c3wenv [] [] [c3witnessItem]).states, RunOps.zero⟩ :=
  c3_idempotent_amended c3wenv [] [] [c3witnessItem] (fun _ => rfl)
    (by decide) (by decide) (by decide) (by decide)

end OneDriveSync
